import Mathlib

/-!
Verification development for the subfont TrueType subsetting library.

The definitions below are a shallow embedding of the Go sources:
pure functions become Lean functions, fallible code returns `Except`,
Go panics (nil dereferences, out-of-range slice indexing) are modelled
as a distinguished `Err.panicked` error, and machine-integer casts are
modelled as `% 2^w` on `Nat` at exactly the places the source casts.
`GlyphIndex` and `CharCode` values are modelled as `Nat`; the source's
arithmetic on them is exact for the value ranges the claims quantify
over, and every `uint16`/`uint32` conversion written in the source is
reproduced with an explicit modulus.
-/

namespace Subfont

/-- Error kinds surfaced by parsing, validation and subsetting, following
the error values of the source (`errRangeCheck`, `errRequiredField`, the
ad hoc `errors.New` messages) plus `panicked` for Go runtime panics. -/
inductive Err where
  | rangeCheck
  | requiredField
  | fileChecksumMismatch
  | headTooShort
  | checksumIncorrect
  | readFailed
  | panicked
  | fuelOut
  deriving DecidableEq, Repr

/-- Go `uint16` conversion. -/
def u16 (n : Nat) : Nat := n % 65536

/-- Go `uint32` conversion. -/
def u32 (n : Nat) : Nat := n % 4294967296

/-- Wrapping `uint16` subtraction `a - b` as Go computes it. -/
def usub16 (a b : Nat) : Nat := (u16 a + 65536 - u16 b) % 65536

/-- Association-list lookup, modelling a Go map read `m[k]` paired with
the presence flag. -/
def lookupA (m : List (Nat × Nat)) (k : Nat) : Option Nat :=
  match m.find? (fun p => p.1 = k) with
  | some p => some p.2
  | none => none

/-- Association-list lookup with Go's zero-value default for a missing key. -/
def lookupD (m : List (Nat × Nat)) (k : Nat) : Nat :=
  (lookupA m k).getD 0

/-- Go map assignment `m[k] = v`: overwrite the binding if present,
append it otherwise. -/
def insertA (m : List (Nat × Nat)) (k v : Nat) : List (Nat × Nat) :=
  match m with
  | [] => [(k, v)]
  | p :: rest => if p.1 = k then (k, v) :: rest else p :: insertA rest k v

/-! ## post table (src/ttf/table_post.go) -/

/-- The `postTable` struct. `fixed`/`fword` fields are raw big-endian
field values, modelled as `Nat`; `offsets` entries are `int8`, modelled
as `Int`; glyph names are strings. -/
structure PostTable where
  version : Nat
  italicAngle : Nat
  underlinePosition : Nat
  underlineThickness : Nat
  isFixedPitch : Nat
  minMemType42 : Nat
  maxMemType42 : Nat
  minMemType1 : Nat
  maxMemType1 : Nat
  numGlyphs : Nat
  glyphNameIndex : List Nat
  offsets : List Int
  glyphNames : List String
  deriving DecidableEq, Repr

/-- Go's zero value for `postTable` (`t := &postTable{}`): every numeric
field 0, every slice nil. -/
def postTableZero : PostTable :=
  { version := 0, italicAngle := 0, underlinePosition := 0,
    underlineThickness := 0, isFixedPitch := 0, minMemType42 := 0,
    maxMemType42 := 0, minMemType1 := 0, maxMemType1 := 0,
    numGlyphs := 0, glyphNameIndex := [], offsets := [], glyphNames := [] }

/-- The version-1.0 branch of `parsePost`: the code rejects the table
with `errRangeCheck` unless `t.numGlyphs == 258`, and otherwise copies
the 258 standard Macintosh names into `glyphNames`.  `macNames` stands
for the `macGlyphNames` array (its 258 entries live outside src/). -/
def parsePostV1Branch (macNames : List String) (t : PostTable) :
    Except Err PostTable :=
  if t.numGlyphs ≠ 258 then Except.error Err.rangeCheck
  else Except.ok { t with glyphNames := macNames }

/-- The header-reading prefix of `parsePost` followed by the version
switch, for the version-1.0 path.  `parsePost` allocates a zero
`postTable`, reads the nine header fields (`version` through
`maxMemType1`) from the stream, and then switches on `version`; for
`0x00010000` it runs the check embodied in `parsePostV1Branch`.  The
field `numGlyphs` is only ever read from the stream in the 2.0/2.5
branches, so on the 1.0 path it still holds the zero value. -/
def parsePostHeaderThenV1 (macNames : List String) (fields : List Nat) :
    Except Err PostTable :=
  match fields with
  | v :: ia :: up :: ut :: fp :: mn42 :: mx42 :: mn1 :: mx1 :: _ =>
    let t := { postTableZero with
      version := v, italicAngle := ia, underlinePosition := up,
      underlineThickness := ut, isFixedPitch := fp, minMemType42 := mn42,
      maxMemType42 := mx42, minMemType1 := mn1, maxMemType1 := mx1 }
    if t.version = 0x00010000 then parsePostV1Branch macNames t
    else Except.ok t
  | _ => Except.error Err.readFailed

/-- `writePost`: returns the sequence of field values written to the
stream together with the post table as left in memory.  When the stored
version is not 1.0 the code overwrites `t.version` with 3.0 before
writing, mutating the in-memory table through the shared pointer. -/
def writePost (post : Option PostTable) : List Nat × Option PostTable :=
  match post with
  | none => ([], none)
  | some t =>
    let t1 := if t.version ≠ 0x00010000 then { t with version := 0x00030000 } else t
    ([t1.version, t1.italicAngle, t1.underlinePosition, t1.underlineThickness,
      t1.isFixedPitch, t1.minMemType42, t1.maxMemType42, t1.minMemType1,
      t1.maxMemType1], some t1)

/-! ## cmap run-length codec: format 4 / format 12 builders (src/export.go) -/

/-- A format-4 segment as emitted by the builder (parallel array entry
of `cmapSubtableFormat4`). -/
structure Seg4 where
  startCode : Nat
  endCode : Nat
  idDelta : Nat
  idRangeOffset : Nat
  deriving DecidableEq, Repr

/-- A `sequentialMapGroup` of a format-12 subtable. -/
structure Group12 where
  startCharCode : Nat
  endCharCode : Nat
  startGlyphID : Nat
  deriving DecidableEq, Repr

/-- The inner loop of the segment builders: starting from anchor
charcode `c0` with glyph index `g0`, count how many further charcodes
continue the run.  The Go condition at offset `k` from the anchor is
`charcodes[j]-charcodes[i] == j-i && gid[charcodes[j]]-gid[charcodes[i]] == j-i`,
modelled exactly as the co-increment equations below. -/
def runExt (gid : Nat → Nat) (c0 g0 : Nat) : Nat → List Nat → Nat
  | _, [] => 0
  | k, c :: rest =>
    if c = c0 + k ∧ gid c = g0 + k then 1 + runExt gid c0 g0 (k + 1) rest
    else 0

/-- The format-4 builder's outer loop: split the charcode list into
greedy runs and emit one delta-only segment per run, with the `uint16`
conversions the source performs on each emitted field
(`startCode = uint16(cc[i])`, `endCode = uint16(cc[i]) + uint16(j-i-1)`,
`idDelta = uint16(gid) - uint16(cc[i])`, `idRangeOffset = 0`). -/
def buildSegs4 (gid : Nat → Nat) : List Nat → List Seg4
  | [] => []
  | c :: rest =>
    let n := runExt gid c (gid c) 1 rest
    { startCode := u16 c,
      endCode := u16 (u16 c + u16 n),
      idDelta := usub16 (gid c) c,
      idRangeOffset := 0 } :: buildSegs4 gid (rest.drop n)
  termination_by ccs => ccs.length
  decreasing_by simp [List.length_drop]; omega

/-- The terminal sentinel segment appended by the format-4 builder. -/
def sentinelSeg4 : Seg4 :=
  { startCode := 65535, endCode := 65535, idDelta := 1, idRangeOffset := 0 }

/-- The sentinel step after the scan: `if segments > 0 &&
newt.endCode[segments-1] < 65535` append the sentinel segment. -/
def appendSentinel4 (segs : List Seg4) : List Seg4 :=
  match segs.getLast? with
  | none => segs
  | some s => if s.endCode < 65535 then segs ++ [sentinelSeg4] else segs

/-- The complete format-4 segment construction of the builder: greedy
scan followed by the sentinel step. -/
def format4Build (gid : Nat → Nat) (ccs : List Nat) : List Seg4 :=
  appendSentinel4 (buildSegs4 gid ccs)

/-- The format-12 builder: the same greedy runs, emitted as sequential
map groups with `uint32` conversions
(`startCharCode = uint32(cc[i])`, `endCharCode = uint32(cc[i]) + uint32(j-i-1)`,
`startGlyphID = uint32(gid)`); no sentinel. -/
def buildGroups12 (gid : Nat → Nat) : List Nat → List Group12
  | [] => []
  | c :: rest =>
    let n := runExt gid c (gid c) 1 rest
    { startCharCode := u32 c,
      endCharCode := u32 (u32 c + u32 n),
      startGlyphID := u32 (gid c) } :: buildGroups12 gid (rest.drop n)
  termination_by ccs => ccs.length
  decreasing_by simp [List.length_drop]; omega

/-- Modelled from the spec: decoding a format-4 subtable "expands each
segment back into individual charcode→GID pairs"; in the delta-only
form the builders emit (`idRangeOffset = 0`) a segment maps every
charcode `c` in `[startCode, endCode]` to `(c + idDelta) mod 2^16`.
The repository's cmap decoder (table_cmap.go) is not under src/. -/
def expandSeg4 (s : Seg4) : List (Nat × Nat) :=
  (List.range (s.endCode + 1 - s.startCode)).map
    (fun k => (s.startCode + k, u16 (s.startCode + k + s.idDelta)))

/-- Expansion of a full format-4 segment list into pairs. -/
def expandSegs4 (segs : List Seg4) : List (Nat × Nat) :=
  segs.flatMap expandSeg4

/-- Modelled from the spec: a format-12 group maps every charcode `c`
in `[startCharCode, endCharCode]` to `startGlyphID + (c - startCharCode)`
in 32-bit arithmetic. -/
def expandGroup12 (g : Group12) : List (Nat × Nat) :=
  (List.range (g.endCharCode + 1 - g.startCharCode)).map
    (fun k => (g.startCharCode + k, u32 (g.startGlyphID + k)))

/-- Expansion of a full format-12 group list into pairs. -/
def expandGroups12 (gs : List Group12) : List (Nat × Nat) :=
  gs.flatMap expandGroup12

/-- The input mapping presented as a list of charcode→GID pairs. -/
def ccPairs (gid : Nat → Nat) (ccs : List Nat) : List (Nat × Nat) :=
  ccs.map (fun c => (c, gid c))

theorem expandSegs4_cons (s : Seg4) (t : List Seg4) :
    expandSegs4 (s :: t) = expandSeg4 s ++ expandSegs4 t := by
  simp [expandSegs4]

theorem expandSegs4_append (a b : List Seg4) :
    expandSegs4 (a ++ b) = expandSegs4 a ++ expandSegs4 b := by
  simp [expandSegs4]

theorem expandGroups12_cons (g : Group12) (t : List Group12) :
    expandGroups12 (g :: t) = expandGroup12 g ++ expandGroups12 t := by
  simp [expandGroups12]

theorem ccPairs_append (gid : Nat → Nat) (a b : List Nat) :
    ccPairs gid (a ++ b) = ccPairs gid a ++ ccPairs gid b := by
  simp [ccPairs]

theorem runExt_spec (gid : Nat → Nat) (c0 g0 : Nat) :
    ∀ (l : List Nat) (k : Nat),
      l.take (runExt gid c0 g0 k l) =
        (List.range (runExt gid c0 g0 k l)).map (fun i => c0 + (k + i)) ∧
      (∀ i, i < runExt gid c0 g0 k l → gid (c0 + (k + i)) = g0 + (k + i)) := by
  intro l
  induction l with
  | nil => intro k; simp [runExt]
  | cons c rest ih =>
    intro k
    by_cases h : c = c0 + k ∧ gid c = g0 + k
    · obtain ⟨ht, hg⟩ := ih (k + 1)
      simp only [runExt, if_pos h]
      constructor
      · have e1 : 1 + runExt gid c0 g0 (k + 1) rest =
            runExt gid c0 g0 (k + 1) rest + 1 := by omega
        rw [e1, List.take_succ_cons, List.range_succ_eq_map, List.map_cons,
          List.map_map, ht]
        congr 1
        · omega
        · apply List.map_congr_left
          intro a _
          simp only [Function.comp_apply]
          omega
      · intro i hi
        rcases i with _ | j
        · have e : c0 + (k + 0) = c := by omega
          rw [e, h.2]
          omega
        · have hj : j < runExt gid c0 g0 (k + 1) rest := by omega
          have e : c0 + (k + (j + 1)) = c0 + (k + 1 + j) := by omega
          rw [e, hg j hj]
          omega
    · simp only [runExt, if_neg h]
      simp

theorem runExt_le_length (gid : Nat → Nat) (c0 g0 : Nat) :
    ∀ (l : List Nat) (k : Nat), runExt gid c0 g0 k l ≤ l.length := by
  intro l
  induction l with
  | nil => intro k; simp [runExt]
  | cons c rest ih =>
    intro k
    simp only [runExt]
    split
    · have := ih (k + 1)
      simp only [List.length_cons]
      omega
    · simp

theorem expandSeg4_run (gid : Nat → Nat) (c n : Nat)
    (hc : c + n < 65536) (hgn : gid c + n < 65536) :
    expandSeg4 { startCode := u16 c, endCode := u16 (u16 c + u16 n),
                 idDelta := usub16 (gid c) c, idRangeOffset := 0 } =
      (List.range (n + 1)).map (fun i => (c + i, gid c + i)) := by
  have h1 : u16 c = c := Nat.mod_eq_of_lt (by omega)
  have h2 : u16 n = n := Nat.mod_eq_of_lt (by omega)
  have h3 : u16 (c + n) = c + n := Nat.mod_eq_of_lt (by omega)
  simp only [expandSeg4, h1, h2, h3]
  have h4 : c + n + 1 - c = n + 1 := by omega
  rw [h4]
  apply List.map_congr_left
  intro k hk
  have hk' : k ≤ n := by
    have := List.mem_range.mp hk
    omega
  have h5 : u16 (c + k + usub16 (gid c) c) = gid c + k := by
    simp only [u16, usub16]
    omega
  simp [h5]

theorem expandGroup12_run (gid : Nat → Nat) (c n : Nat)
    (hc : c + n < 4294967296) (hgn : gid c + n < 4294967296) :
    expandGroup12 { startCharCode := u32 c, endCharCode := u32 (u32 c + u32 n),
                    startGlyphID := u32 (gid c) } =
      (List.range (n + 1)).map (fun i => (c + i, gid c + i)) := by
  have h1 : u32 c = c := Nat.mod_eq_of_lt (by omega)
  have h2 : u32 n = n := Nat.mod_eq_of_lt (by omega)
  have h3 : u32 (c + n) = c + n := Nat.mod_eq_of_lt (by omega)
  have h0 : u32 (gid c) = gid c := Nat.mod_eq_of_lt (by omega)
  simp only [expandGroup12, h1, h2, h3, h0]
  have h4 : c + n + 1 - c = n + 1 := by omega
  rw [h4]
  apply List.map_congr_left
  intro k hk
  have hk' : k ≤ n := by
    have := List.mem_range.mp hk
    omega
  have h5 : u32 (gid c + k) = gid c + k := Nat.mod_eq_of_lt (by omega)
  simp [h5]

/-- Facts about one greedy run taken from the head of the charcode list:
glyph indices co-increment along the run and every run element is a
member of the input list. -/
theorem run_head_facts (gid : Nat → Nat) (c : Nat) (rest : List Nat) :
    (∀ i, i ≤ runExt gid c (gid c) 1 rest → gid (c + i) = gid c + i) ∧
    (∀ i, i ≤ runExt gid c (gid c) 1 rest → c + i ∈ c :: rest) := by
  obtain ⟨ht, hg⟩ := runExt_spec gid c (gid c) rest 1
  constructor
  · intro i hi
    rcases i with _ | j
    · simp
    · have hj : j < runExt gid c (gid c) 1 rest := by omega
      have e : c + (j + 1) = c + (1 + j) := by omega
      rw [e, hg j hj]
      omega
  · intro i hi
    rcases i with _ | j
    · simp
    · have hj : j < runExt gid c (gid c) 1 rest := by omega
      have hmem : c + (1 + j) ∈ rest.take (runExt gid c (gid c) 1 rest) := by
        rw [ht]
        exact List.mem_map.mpr ⟨j, List.mem_range.mpr hj, rfl⟩
      have e : c + (j + 1) = c + (1 + j) := by omega
      rw [e]
      exact List.mem_cons_of_mem c (List.take_subset _ _ hmem)

theorem expandSegs4_buildSegs4_aux (gid : Nat → Nat) :
    ∀ (N : Nat) (ccs : List Nat), ccs.length ≤ N →
      (∀ x ∈ ccs, x < 65536) → (∀ x ∈ ccs, gid x < 65536) →
      expandSegs4 (buildSegs4 gid ccs) = ccPairs gid ccs := by
  intro N
  induction N with
  | zero =>
    intro ccs hlen _ _
    have : ccs = [] := List.length_eq_zero.mp (Nat.le_zero.mp hlen)
    subst this
    simp [buildSegs4, expandSegs4, ccPairs]
  | succ N ih =>
    intro ccs hlen hcb hgb
    match ccs with
    | [] => simp [buildSegs4, expandSegs4, ccPairs]
    | c :: rest =>
      obtain ⟨hrun, hmem⟩ := run_head_facts gid c rest
      set n := runExt gid c (gid c) 1 rest with hn
      have hcn : c + n < 65536 := hcb _ (hmem n le_rfl)
      have hgn : gid c + n < 65536 := by
        rw [← hrun n le_rfl]
        exact hgb _ (hmem n le_rfl)
      have hb : buildSegs4 gid (c :: rest) =
          { startCode := u16 c, endCode := u16 (u16 c + u16 n),
            idDelta := usub16 (gid c) c, idRangeOffset := 0 } ::
            buildSegs4 gid (rest.drop n) := by
        rw [buildSegs4]
      rw [hb, expandSegs4_cons, expandSeg4_run gid c n hcn hgn]
      have hlen2 : (rest.drop n).length ≤ N := by
        have := List.length_drop n rest
        simp only [List.length_cons] at hlen
        omega
      rw [ih (rest.drop n) hlen2
          (fun x hx => hcb x (List.mem_cons_of_mem c (List.drop_subset n rest hx)))
          (fun x hx => hgb x (List.mem_cons_of_mem c (List.drop_subset n rest hx)))]
      conv_rhs =>
        rw [show c :: rest = (c :: rest.take n) ++ rest.drop n from by
          rw [List.cons_append, List.take_append_drop]]
      rw [ccPairs_append]
      congr 1
      obtain ⟨ht, _⟩ := runExt_spec gid c (gid c) rest 1
      rw [ccPairs, List.map_cons, ← hn] at *
      rw [ht, List.range_succ_eq_map, List.map_cons, List.map_map, List.map_map]
      congr 1
      apply List.map_congr_left
      intro a ha
      have han : a < n := List.mem_range.mp ha
      simp only [Function.comp_apply, Prod.mk.injEq]
      refine ⟨by omega, ?_⟩
      have e : c + (1 + a) = c + (a + 1) := by omega
      rw [e, hrun (a + 1) (by omega)]

/-- Format-4 data-segment round trip: expanding the segments of the
greedy scan (before the sentinel step) reproduces the input pairs. -/
theorem expandSegs4_buildSegs4 (gid : Nat → Nat) (ccs : List Nat)
    (hcb : ∀ x ∈ ccs, x < 65536) (hgb : ∀ x ∈ ccs, gid x < 65536) :
    expandSegs4 (buildSegs4 gid ccs) = ccPairs gid ccs :=
  expandSegs4_buildSegs4_aux gid ccs.length ccs le_rfl hcb hgb

theorem expandGroups12_buildGroups12_aux (gid : Nat → Nat) :
    ∀ (N : Nat) (ccs : List Nat), ccs.length ≤ N →
      (∀ x ∈ ccs, x < 4294967296) → (∀ x ∈ ccs, gid x < 4294967296) →
      expandGroups12 (buildGroups12 gid ccs) = ccPairs gid ccs := by
  intro N
  induction N with
  | zero =>
    intro ccs hlen _ _
    have : ccs = [] := List.length_eq_zero.mp (Nat.le_zero.mp hlen)
    subst this
    simp [buildGroups12, expandGroups12, ccPairs]
  | succ N ih =>
    intro ccs hlen hcb hgb
    match ccs with
    | [] => simp [buildGroups12, expandGroups12, ccPairs]
    | c :: rest =>
      obtain ⟨hrun, hmem⟩ := run_head_facts gid c rest
      set n := runExt gid c (gid c) 1 rest with hn
      have hcn : c + n < 4294967296 := hcb _ (hmem n le_rfl)
      have hgn : gid c + n < 4294967296 := by
        rw [← hrun n le_rfl]
        exact hgb _ (hmem n le_rfl)
      have hb : buildGroups12 gid (c :: rest) =
          { startCharCode := u32 c, endCharCode := u32 (u32 c + u32 n),
            startGlyphID := u32 (gid c) } ::
            buildGroups12 gid (rest.drop n) := by
        rw [buildGroups12]
      rw [hb, expandGroups12_cons, expandGroup12_run gid c n hcn hgn]
      have hlen2 : (rest.drop n).length ≤ N := by
        have := List.length_drop n rest
        simp only [List.length_cons] at hlen
        omega
      rw [ih (rest.drop n) hlen2
          (fun x hx => hcb x (List.mem_cons_of_mem c (List.drop_subset n rest hx)))
          (fun x hx => hgb x (List.mem_cons_of_mem c (List.drop_subset n rest hx)))]
      conv_rhs =>
        rw [show c :: rest = (c :: rest.take n) ++ rest.drop n from by
          rw [List.cons_append, List.take_append_drop]]
      rw [ccPairs_append]
      congr 1
      obtain ⟨ht, _⟩ := runExt_spec gid c (gid c) rest 1
      rw [ccPairs, List.map_cons, ← hn] at *
      rw [ht, List.range_succ_eq_map, List.map_cons, List.map_map, List.map_map]
      congr 1
      apply List.map_congr_left
      intro a ha
      have han : a < n := List.mem_range.mp ha
      simp only [Function.comp_apply, Prod.mk.injEq]
      refine ⟨by omega, ?_⟩
      have e : c + (1 + a) = c + (a + 1) := by omega
      rw [e, hrun (a + 1) (by omega)]

/-- Format-12 round trip: expanding the groups the builder emits
reproduces exactly the input pairs (no sentinel involved). -/
theorem expandGroups12_buildGroups12 (gid : Nat → Nat) (ccs : List Nat)
    (hcb : ∀ x ∈ ccs, x < 4294967296) (hgb : ∀ x ∈ ccs, gid x < 4294967296) :
    expandGroups12 (buildGroups12 gid ccs) = ccPairs gid ccs :=
  expandGroups12_buildGroups12_aux gid ccs.length ccs le_rfl hcb hgb

theorem appendSentinel4_eq (segs : List Seg4) (s : Seg4)
    (h : segs.getLast? = some s) (hlt : s.endCode < 65535) :
    appendSentinel4 segs = segs ++ [sentinelSeg4] := by
  simp [appendSentinel4, h, hlt]

theorem expandSeg4_sentinel : expandSeg4 sentinelSeg4 = [(65535, 0)] := by
  decide

/-- C1, corrected: the claim as frozen states that expanding the format-4
segments produced by the builder reproduces exactly the input pairs.  It
does not: the mandatory sentinel segment itself expands to the extra pair
`0xFFFF ↦ 0` (`0xFFFF + idDelta 1` wraps to glyph 0).  At the concrete
input with the single charcode 0 mapped to glyph 1, the builder's
segments expand to `[(0, 1), (65535, 0)]`, not to `[(0, 1)]`. -/
theorem c1_counterexample :
    expandSegs4 (format4Build (fun _ => 1) [0]) ≠ ccPairs (fun _ => 1) [0] := by
  have h : expandSegs4 (format4Build (fun _ => 1) [0]) = [(0, 1), (65535, 0)] := by
    simp [format4Build, buildSegs4, runExt, appendSentinel4, expandSegs4,
      expandSeg4, u16, usub16, sentinelSeg4, List.range_succ, ccPairs]
  rw [h]
  decide

/-- C1, amended: for every sorted list of distinct charcodes with 16-bit
values and every glyph-index function with 16-bit values, expanding the
data segments produced by the format-4 builder reproduces exactly the
input charcode→glyph-index pairs; whenever at least one data segment
exists and the last one's endCode is below 0xFFFF, the builder appends
the terminal sentinel segment {0xFFFF, 0xFFFF, 1, 0} as the final
segment, and the full expansion is then the input pairs plus the single
extra pair 0xFFFF→0 contributed by the sentinel.  For format 12 (32-bit
values) the expansion of the emitted groups reproduces exactly the input
pairs, with no sentinel. -/
theorem c1_segment_roundtrip :
    (∀ (gid : Nat → Nat) (ccs : List Nat),
       ccs.Sorted (· < ·) →
       (∀ x ∈ ccs, x < 65536) → (∀ x ∈ ccs, gid x < 65536) →
       expandSegs4 (buildSegs4 gid ccs) = ccPairs gid ccs ∧
       (∀ s : Seg4, (buildSegs4 gid ccs).getLast? = some s →
          s.endCode < 65535 →
          format4Build gid ccs = buildSegs4 gid ccs ++ [sentinelSeg4] ∧
          expandSegs4 (format4Build gid ccs) =
            ccPairs gid ccs ++ [(65535, 0)])) ∧
    (∀ (gid : Nat → Nat) (ccs : List Nat),
       ccs.Sorted (· < ·) →
       (∀ x ∈ ccs, x < 4294967296) → (∀ x ∈ ccs, gid x < 4294967296) →
       expandGroups12 (buildGroups12 gid ccs) = ccPairs gid ccs) := by
  constructor
  · intro gid ccs _ hcb hgb
    have hA := expandSegs4_buildSegs4 gid ccs hcb hgb
    refine ⟨hA, ?_⟩
    intro s hs hlt
    have hB : format4Build gid ccs = buildSegs4 gid ccs ++ [sentinelSeg4] := by
      rw [format4Build]
      exact appendSentinel4_eq _ s hs hlt
    refine ⟨hB, ?_⟩
    rw [hB, expandSegs4_append, hA]
    simp [expandSegs4, expandSeg4_sentinel]
  · intro gid ccs _ hcb hgb
    exact expandGroups12_buildGroups12 gid ccs hcb hgb

/-- Witness for `c1_segment_roundtrip` at the sorted charcode list
`[5, 6, 9]` with glyph-index function `x + 3`. -/
theorem c1_segment_roundtrip_witness :
    expandSegs4 (buildSegs4 (fun x => x + 3) [5, 6, 9]) =
      ccPairs (fun x => x + 3) [5, 6, 9] ∧
    expandGroups12 (buildGroups12 (fun x => x + 3) [5, 6, 9]) =
      ccPairs (fun x => x + 3) [5, 6, 9] :=
  ⟨(c1_segment_roundtrip.1 (fun x => x + 3) [5, 6, 9]
      (by decide) (by decide) (by decide)).1,
   c1_segment_roundtrip.2 (fun x => x + 3) [5, 6, 9]
      (by decide) (by decide) (by decide)⟩

/-- C7: parsing a post table whose version field is 1.0 always fails
with a range-check error, whatever the remaining header fields and
stream contents are.  The branch compares the `numGlyphs` field against
258, but that field is never read from the stream on the 1.0 path, so it
still holds Go's zero value 0. -/
theorem c7_post_v1_always_range_error (macNames : List String)
    (ia up ut fp m1 m2 m3 m4 : Nat) (rest : List Nat) :
    parsePostHeaderThenV1 macNames
      (0x00010000 :: ia :: up :: ut :: fp :: m1 :: m2 :: m3 :: m4 :: rest) =
      Except.error Err.rangeCheck := by
  rfl

/-- C10: serializing the post table writes exactly the nine fixed header
fields (version, italicAngle, underlinePosition, underlineThickness,
isFixedPitch and the four memory fields) and never any glyph-name data;
when the stored version is not 1.0, the version written out is 3.0 and
that value is also stored back into the in-memory post table.  The
written output is independent of the glyph-name data (glyphNameIndex,
offsets, glyphNames, numGlyphs). -/
theorem c10_writePost_header_only (t : PostTable) :
    writePost (some t) =
      ([(if t.version = 0x00010000 then t.version else 0x00030000),
        t.italicAngle, t.underlinePosition, t.underlineThickness,
        t.isFixedPitch, t.minMemType42, t.maxMemType42, t.minMemType1,
        t.maxMemType1],
       some { t with version :=
         if t.version = 0x00010000 then t.version else 0x00030000 }) ∧
    (∀ (ni : List Nat) (offs : List Int) (names : List String) (ng : Nat),
       (writePost (some { t with glyphNameIndex := ni, offsets := offs,
                                 glyphNames := names, numGlyphs := ng })).1 =
       (writePost (some t)).1) := by
  constructor
  · by_cases h : t.version = 0x00010000 <;> (cases t <;> simp_all [writePost])
  · intro ni offs names ng
    by_cases h : t.version = 0x00010000 <;> simp [writePost, h]

/-! ## font table model (struct fields as used by src/export.go) -/

/-- `headTable`, restricted to the fields the subsetting engine reads:
`indexToLocFormat` (0 selects short loca offsets) and
`checksumAdjustment` (used by the validator). -/
structure HeadTable where
  indexToLocFormat : Nat
  checksumAdjustment : Nat
  deriving DecidableEq, Repr

/-- `maxpTable`, restricted to `numGlyphs` (a `uint16`). -/
structure MaxpTable where
  numGlyphs : Nat
  deriving DecidableEq, Repr

/-- `hheaTable`, restricted to `numberOfHMetrics` (a `uint16`). -/
structure HheaTable where
  numberOfHMetrics : Nat
  deriving DecidableEq, Repr

/-- A `longHorMetric` entry of the hmtx table. -/
structure LongHorMetric where
  advanceWidth : Nat
  lsb : Int
  deriving DecidableEq, Repr

/-- `hmtxTable`. -/
structure HmtxTable where
  hMetrics : List LongHorMetric
  leftSideBearings : List Int
  deriving DecidableEq, Repr

/-- `locaTable`: one of the two offset lists is populated according to
`head.indexToLocFormat`, the other left nil. -/
structure LocaTable where
  offsetsShort : List Nat
  offsetsLong : List Nat
  deriving DecidableEq, Repr

/-- A glyph description of the glyf table: the opaque raw byte blob,
plus the component glyph indices `GetComponents` extracts from it for a
composite glyph (empty for simple glyphs).  The component list is
derived from `raw` in the source; it is carried as a sibling field here
because the blob is otherwise opaque to the subsetting engine. -/
structure GlyphDesc where
  raw : List Nat
  components : List Nat
  deriving DecidableEq, Repr

/-- `glyfTable`. -/
structure GlyfTable where
  descs : List GlyphDesc
  deriving DecidableEq, Repr

/-- A `name` table record. -/
structure NameRecord where
  data : List Nat
  offset : Nat
  length : Nat
  deriving DecidableEq, Repr

/-- `nameTable`. -/
structure NameTable where
  nameRecords : List NameRecord
  deriving DecidableEq, Repr

/-- A table-directory record: 4-byte tag, checksum, byte offset and
byte length of the table body. -/
structure TableRecord where
  tag : String
  checksum : Nat
  offset : Nat
  length : Nat
  deriving DecidableEq, Repr

/-- `tableRecords`: the directory in on-disk order; the source also
keeps a map keyed by tag (`trMap`), modelled as lookup on the list. -/
structure TableRecords where
  list : List TableRecord
  deriving DecidableEq, Repr

/-- `trMap` lookup by tag. -/
def trFind (tr : TableRecords) (tag : String) : Option TableRecord :=
  match tr.list.find? (fun r => r.tag = tag) with
  | some r => some r
  | none => none

/-- `cmapSubtableFormat4` (header fields plus the four parallel
segment arrays). -/
structure Format4 where
  length : Nat
  language : Nat
  segCountX2 : Nat
  searchRange : Nat
  entrySelector : Nat
  rangeShift : Nat
  startCode : List Nat
  endCode : List Nat
  idDelta : List Nat
  idRangeOffset : List Nat
  deriving DecidableEq, Repr

/-- `cmapSubtableFormat12`. -/
structure Format12 where
  length : Nat
  language : Nat
  numGroups : Nat
  groups : List Group12
  deriving DecidableEq, Repr

/-- The tagged variant held in a subtable's `ctx` field (a Go `any`
holding one of the closed set of format payload structs). -/
inductive CmapCtx where
  | format0 (glyphIDArray : List Nat)
  | format4 (t : Format4)
  | format6 (firstCode : Nat) (glyphIDArray : List Nat)
  | format12 (t : Format12)
  | unsupported
  deriving DecidableEq, Repr

/-- `cmapSubtable`: platform/encoding IDs, the decoded rune→GID map,
the matched rune list, the ordered charcode list, the charcode→GID
reverse map, and the format payload. -/
structure CmapSubtable where
  platformID : Nat
  encodingID : Nat
  cmap : List (Nat × Nat)
  runes : List Nat
  charcodes : List Nat
  charcodeToGID : List (Nat × Nat)
  ctx : CmapCtx
  deriving DecidableEq, Repr

/-- `cmapTable`: version, subtable count, ordered key list and the keyed
subtable collection (a Go map, modelled as an association list). -/
structure CmapTable where
  version : Nat
  numTables : Nat
  subtableKeys : List String
  subtables : List (String × CmapSubtable)
  deriving DecidableEq, Repr

/-- Go map read `f.cmap.subtables[name]`. -/
def findSubtable (c : CmapTable) (name : String) : Option CmapSubtable :=
  match c.subtables.find? (fun p => p.1 = name) with
  | some p => some p.2
  | none => none

/-- The font data model: one optional field per recognized table, plus
the offset table and the table-record directory (`ot`/`trec`, whose
contents beyond the directory list are opaque to the claims). -/
structure Font where
  ot : Option Unit
  trec : Option TableRecords
  head : Option HeadTable
  maxp : Option MaxpTable
  hhea : Option HheaTable
  hmtx : Option HmtxTable
  loca : Option LocaTable
  glyf : Option GlyfTable
  prep : Option Unit
  cvt : Option Unit
  fpgm : Option Unit
  name : Option NameTable
  os2 : Option Unit
  post : Option PostTable
  cmap : Option CmapTable
  deriving DecidableEq, Repr

/-! ## shared subsetting helpers -/

/-- `sort.Slice(charcodes, less-than)`. -/
def sortNat (l : List Nat) : List Nat := l.insertionSort (· ≤ ·)

/-- Number of explicit hMetrics entries kept by the hmtx optimization:
the length of the shortest prefix that still ends at the first entry of
the maximal constant-advance-width suffix. -/
def hmtxKeepLen : List LongHorMetric → Nat
  | [] => 0
  | [_] => 1
  | a :: b :: rest =>
    let n := hmtxKeepLen (b :: rest)
    if n = 1 ∧ a.advanceWidth = b.advanceWidth then 1 else 1 + n

/-- Modelled from the spec: `optimizeHmtx` (its body is not under src/)
"collapses redundant trailing hmtx entries only" — trailing hMetrics
repeating the previous advance width are dropped, their left side
bearings move to the shared `leftSideBearings` tail, and
`hhea.numberOfHMetrics` becomes the number of explicit pairs kept. -/
def optimizeHmtxPair (hhea : Option HheaTable) (hmtx : Option HmtxTable) :
    Option HheaTable × Option HmtxTable :=
  match hmtx with
  | none => (hhea, hmtx)
  | some hm =>
    let keep := hmtxKeepLen hm.hMetrics
    ((hhea.map (fun hh => { hh with numberOfHMetrics := u16 keep })),
     some { hMetrics := hm.hMetrics.take keep,
            leftSideBearings :=
              (hm.hMetrics.drop keep).map LongHorMetric.lsb ++
                hm.leftSideBearings })

/-- Loca offset recomputation, short form: `offsetsShort[i+1] =
offsetsShort[i] + offset16(len(desc.raw))/2` in `uint16` arithmetic. -/
def locaAccum16 (o0 : Nat) : List GlyphDesc → List Nat
  | [] => [o0]
  | d :: rest => o0 :: locaAccum16 (u16 (o0 + u16 d.raw.length / 2)) rest

/-- Loca offset recomputation, long form: `offsetsLong[i+1] =
offsetsLong[i] + offset32(len(desc.raw))` in `uint32` arithmetic. -/
def locaAccum32 (o0 : Nat) : List GlyphDesc → List Nat
  | [] => [o0]
  | d :: rest => o0 :: locaAccum32 (u32 (o0 + u32 d.raw.length)) rest

/-- The shared loca-rebuilding block: seed the selected offset list with
the source's entry 0 (a panic when that list is empty, as in Go) and
accumulate over the glyph descriptions; the unselected list is left
nil. -/
def locaRebuild (isShort : Bool) (src : LocaTable) (descs : List GlyphDesc) :
    Except Err LocaTable :=
  if isShort then
    match src.offsetsShort with
    | [] => Except.error Err.panicked
    | o0 :: _ =>
      Except.ok { offsetsShort := locaAccum16 o0 descs, offsetsLong := [] }
  else
    match src.offsetsLong with
    | [] => Except.error Err.panicked
    | o0 :: _ =>
      Except.ok { offsetsShort := [], offsetsLong := locaAccum32 o0 descs }

theorem locaAccum16_length (o0 : Nat) (l : List GlyphDesc) :
    (locaAccum16 o0 l).length = l.length + 1 := by
  induction l generalizing o0 with
  | nil => simp [locaAccum16]
  | cons d rest ih => simp [locaAccum16, ih]

theorem locaAccum32_length (o0 : Nat) (l : List GlyphDesc) :
    (locaAccum32 o0 l).length = l.length + 1 := by
  induction l generalizing o0 with
  | nil => simp [locaAccum32]
  | cons d rest ih => simp [locaAccum32, ih]

/-- The format-4 header fields the builders compute.  The source derives
`searchRange`/`entrySelector` through float64 `math.Pow`/`math.Log2`;
for `segments ≥ 1` those coincide with the exact integer powers and
base-2 logarithms modelled here, and for `segments = 0` (where the float
pipeline degenerates through `-Inf`) the conversion is modelled as 0. -/
def mkFormat4 (language : Nat) (segs : List Seg4) : Format4 :=
  let segments := segs.length
  let searchRange := if segments = 0 then 0 else u16 (2 * 2 ^ Nat.log2 segments)
  { length := u16 (2 * 8 + 2 * 4 * segments)
    language := language
    segCountX2 := u16 (segments * 2)
    searchRange := searchRange
    entrySelector := if searchRange = 0 then 0 else Nat.log2 (searchRange / 2)
    rangeShift := usub16 (segments * 2) searchRange
    startCode := segs.map Seg4.startCode
    endCode := segs.map Seg4.endCode
    idDelta := segs.map Seg4.idDelta
    idRangeOffset := segs.map Seg4.idRangeOffset }

/-- The format-12 header fields the builders compute. -/
def mkFormat12 (language : Nat) (gs : List Group12) : Format12 :=
  { length := u32 (2 * 2 + 3 * 4 + gs.length * 3 * 4)
    language := language
    numGroups := u32 gs.length
    groups := gs }

/-! ## SubsetFirst (src/export.go, lines 291-538) -/

/-- The per-subtable `ctx` transformation of `SubsetFirst`'s cmap loop:
format 0 zeroes array entries at index `i > numGlyphs` (the source
compares the array index, not the stored glyph value); format 6 zeroes
entries whose glyph value is `≥ numGlyphs`; formats 4 and 12 rebuild
from the charcodes whose glyph index is `< numGlyphs`, sorted; other
payloads pass through. -/
def subsetFirstCtx (numGlyphs : Nat) (subt : CmapSubtable) : CmapSubtable :=
  match subt.ctx with
  | CmapCtx.format0 arr =>
    { subt with ctx :=
        CmapCtx.format0 (arr.mapIdx (fun i v => if numGlyphs < i then 0 else v)) }
  | CmapCtx.format4 t =>
    let ccs := sortNat ((subt.charcodeToGID.filter
      (fun p => p.2 < numGlyphs)).map Prod.fst)
    let segs := format4Build (fun cc => lookupD subt.charcodeToGID cc) ccs
    { subt with ctx := CmapCtx.format4 (mkFormat4 t.language segs) }
  | CmapCtx.format6 first arr =>
    { subt with ctx :=
        CmapCtx.format6 first (arr.map (fun v => if numGlyphs ≤ v then 0 else v)) }
  | CmapCtx.format12 t =>
    let ccs := sortNat ((subt.charcodeToGID.filter
      (fun p => p.2 < numGlyphs)).map Prod.fst)
    let gs := buildGroups12 (fun cc => lookupD subt.charcodeToGID cc) ccs
    { subt with ctx := CmapCtx.format12 (mkFormat12 t.language gs) }
  | CmapCtx.unsupported => subt

/-- `SubsetFirst`'s loop over `subtableKeys`: look each subtable up in
the keyed collection (a missing key yields Go's nil map value and a nil
dereference, modelled as a panic) and transform its payload. -/
def subsetFirstSubtables (numGlyphs : Nat) (c : CmapTable) :
    List String → Except Err (List (String × CmapSubtable))
  | [] => Except.ok []
  | nm :: rest =>
    match findSubtable c nm with
    | none => Except.error Err.panicked
    | some subt =>
      match subsetFirstSubtables numGlyphs c rest with
      | Except.error e => Except.error e
      | Except.ok tail => Except.ok ((nm, subsetFirstCtx numGlyphs subt) :: tail)

/-- The new cmap table `SubsetFirst` constructs: same version, rebuilt
keyed collection in key order, `numTables` recomputed from it. -/
def subsetFirstCmap (numGlyphs : Nat) (c : CmapTable) : Except Err CmapTable :=
  match subsetFirstSubtables numGlyphs c c.subtableKeys with
  | Except.error e => Except.error e
  | Except.ok subts =>
    Except.ok { version := c.version, numTables := u16 subts.length,
                subtableKeys := subts.map Prod.fst, subtables := subts }

/-- The glyf/loca block of `SubsetFirst`: runs only when both tables are
present; slices the glyph descriptions to the first `numGlyphs` (a Go
panic when the font has fewer) and recomputes loca in the width selected
by `head.indexToLocFormat` (a nil `head` is a Go panic here). -/
def subsetFirstGlyfLoca (f : Font) (numGlyphs : Nat) :
    Except Err (Option GlyfTable × Option LocaTable) :=
  match f.glyf, f.loca with
  | some gl, some lc =>
    match f.head with
    | none => Except.error Err.panicked
    | some hd =>
      if gl.descs.length < numGlyphs then Except.error Err.panicked
      else
        let descs1 := gl.descs.take numGlyphs
        match locaRebuild (hd.indexToLocFormat = 0) lc descs1 with
        | Except.error e => Except.error e
        | Except.ok lc1 => Except.ok (some { descs := descs1 }, some lc1)
  | _, _ => Except.ok (none, none)

/-- The post-table truncation of `SubsetFirst`. -/
def subsetFirstPost (p : PostTable) (numGlyphs : Nat) : PostTable :=
  let p1 := if 0 < p.numGlyphs then { p with numGlyphs := u16 numGlyphs } else p
  let p2 := if numGlyphs < p1.glyphNameIndex.length then
    { p1 with glyphNameIndex := p1.glyphNameIndex.take numGlyphs } else p1
  let p3 := if numGlyphs < p2.offsets.length then
    { p2 with offsets := p2.offsets.take numGlyphs } else p2
  if numGlyphs < p3.glyphNames.length then
    { p3 with glyphNames := p3.glyphNames.take numGlyphs } else p3

/-- `SubsetFirst`: truncate the font to its first `numGlyphs` glyphs.
Returns the receiver unchanged when it already has at most that many
glyphs (`f.maxp` is dereferenced unconditionally first — nil is a Go
panic); otherwise rebuilds each table as in the source, in source
order.  `optimizeHmtx` runs right after the hmtx truncation, on the new
hhea/hmtx pair. -/
def subsetFirst (f : Font) (numGlyphs : Nat) : Except Err Font :=
  match f.maxp with
  | none => Except.error Err.panicked
  | some mp =>
    if mp.numGlyphs ≤ numGlyphs then Except.ok f
    else
      let maxp1 : Option MaxpTable := some { mp with numGlyphs := u16 numGlyphs }
      let hhea1 := f.hhea.map (fun hh =>
        if u16 numGlyphs < hh.numberOfHMetrics then
          { hh with numberOfHMetrics := u16 numGlyphs } else hh)
      let hmtx1 := f.hmtx.map (fun hm =>
        if numGlyphs < hm.hMetrics.length then
          { hMetrics := hm.hMetrics.take numGlyphs, leftSideBearings := [] }
        else
          let numKeep := min (numGlyphs - hm.hMetrics.length)
            hm.leftSideBearings.length
          { hm with leftSideBearings := hm.leftSideBearings.take numKeep })
      let (hhea2, hmtx2) := optimizeHmtxPair hhea1 hmtx1
      match subsetFirstGlyfLoca f numGlyphs with
      | Except.error e => Except.error e
      | Except.ok (glyf1, loca1) =>
        let post1 := f.post.map (fun p => subsetFirstPost p numGlyphs)
        match f.cmap with
        | none =>
          Except.ok
            { ot := f.ot, trec := f.trec, head := f.head, maxp := maxp1,
              hhea := hhea2, hmtx := hmtx2, loca := loca1, glyf := glyf1,
              prep := f.prep, cvt := f.cvt, fpgm := f.fpgm, name := f.name,
              os2 := f.os2, post := post1, cmap := none }
        | some c =>
          match subsetFirstCmap numGlyphs c with
          | Except.error e => Except.error e
          | Except.ok c1 =>
            Except.ok
              { ot := f.ot, trec := f.trec, head := f.head, maxp := maxp1,
                hhea := hhea2, hmtx := hmtx2, loca := loca1, glyf := glyf1,
                prep := f.prep, cvt := f.cvt, fpgm := f.fpgm, name := f.name,
                os2 := f.os2, post := post1, cmap := some c1 }

/-- Projection of the cmap subtable payloads of a font, in key order. -/
def cmapCtxs (f : Font) : List CmapCtx :=
  match f.cmap with
  | none => []
  | some c => c.subtables.map (fun p => p.2.ctx)

/-- A concrete six-glyph font with a format-0 cmap subtable whose entry
for charcode 0 points at glyph 5; used to instantiate theorems. -/
def exFont9 : Font :=
  { ot := some (), trec := some ⟨[]⟩, head := some ⟨0, 0⟩,
    maxp := some ⟨6⟩, hhea := none, hmtx := none,
    loca := some ⟨[0, 1, 2, 3, 4, 5, 6], []⟩,
    glyf := some ⟨[⟨[0, 0], []⟩, ⟨[0, 0], []⟩, ⟨[0, 0], []⟩,
                   ⟨[0, 0], []⟩, ⟨[0, 0], []⟩, ⟨[0, 0], []⟩]⟩,
    prep := none, cvt := none, fpgm := none, name := none, os2 := none,
    post := none,
    cmap := some ⟨0, 1, ["0,0"],
      [("0,0", ⟨1, 0, [(0, 5)], [], [0], [(0, 5)],
        CmapCtx.format0 [5, 0, 0, 9]⟩)]⟩ }

/-- C6: `subsetFirst f n` with `n ≥ f.maxp.numGlyphs` hands the same
table model back unchanged: the result is `f` itself. -/
theorem c6_subsetFirst_noop (f : Font) (n : Nat) (mp : MaxpTable)
    (hmp : f.maxp = some mp) (h : mp.numGlyphs ≤ n) :
    subsetFirst f n = Except.ok f := by
  simp [subsetFirst, hmp, h]

/-- Witness for `c6_subsetFirst_noop` on `exFont9` with n = 6. -/
theorem c6_subsetFirst_noop_witness : subsetFirst exFont9 6 = Except.ok exFont9 :=
  c6_subsetFirst_noop exFont9 6 ⟨6⟩ rfl (by decide)

/-- C9: on `exFont9`, `subsetFirst 2` leaves the format-0 subtable
mapping charcode 0 to glyph index 5 ≥ 2: the source zeroes entries at
array index `i > numGlyphs` (the charcode position) rather than entries
whose stored glyph value is `≥ numGlyphs`, so the out-of-range target at
index 0 survives (while the in-range position 3 holding value 9 is the
only entry that happens to be cleared). -/
theorem c9_format0_index_bug :
    Except.map cmapCtxs (subsetFirst exFont9 2) =
      Except.ok [CmapCtx.format0 [5, 0, 0, 0]] := by
  rfl

/-! ## GetCmap and LookupRunes (src/export.go, lines 82-131) -/

/-- `GetCmap`: the decoded rune→GID map of the subtable with the given
platform and encoding IDs, or none.  The source iterates the Go map's
values in unspecified order; at most one subtable carries a given
(platformID, encodingID) pair, so scanning the stored list is
equivalent. -/
def getCmap (f : Font) (platformID encodingID : Nat) :
    Option (List (Nat × Nat)) :=
  match f.cmap with
  | none => none
  | some c =>
    match c.subtables.find? (fun p =>
        p.2.platformID = platformID ∧ p.2.encodingID = encodingID) with
    | some p => some p.2.cmap
    | none => none

/-- The inner search of `LookupRunes`: try each map in priority order,
skipping nil maps, and return the first hit. -/
def firstHit : List (Option (List (Nat × Nat))) → Nat → Option Nat
  | [], _ => none
  | none :: ms, r => firstHit ms r
  | some mp :: ms, r =>
    match lookupA mp r with
    | some ind => some ind
    | none => firstHit ms r

/-- `slices.Compact`: collapse consecutive duplicates. -/
def compactAdj : List Nat → List Nat
  | [] => []
  | [a] => [a]
  | a :: b :: rest =>
    if a = b then compactAdj (b :: rest) else a :: compactAdj (b :: rest)

/-- The priority-ordered map list of `LookupRunes`:
(3,1), (1,0), (0,3), (3,10). -/
def lookupMaps (f : Font) : List (Option (List (Nat × Nat))) :=
  [getCmap f 3 1, getCmap f 1 0, getCmap f 0 3, getCmap f 3 10]

/-- One step of the rune loop of `LookupRunes`: a hit appends the glyph
index and records gid→rune in `runesMap`; a miss leaves both untouched. -/
def lookupStep (maps : List (Option (List (Nat × Nat))))
    (acc : List Nat × List (Nat × Nat)) (r : Nat) :
    List Nat × List (Nat × Nat) :=
  match firstHit maps r with
  | some ind => (acc.1 ++ [ind], insertA acc.2 ind r)
  | none => acc

/-- `LookupRunes`: resolve each rune through the subtables in priority
order, seed the index list with glyph 0, sort and deduplicate the
indices, and rebuild the returned rune list by looking each index up in
the gid→rune map (Go's zero-value rune 0 when nothing mapped to the
index).  Unmatched runes are simply skipped. -/
def lookupRunes (f : Font) (runes : List Nat) : List Nat × List Nat :=
  let scanned := runes.foldl (lookupStep (lookupMaps f)) ([0], [])
  let indices := compactAdj (sortNat scanned.1)
  (indices, indices.map (fun gid => lookupD scanned.2 gid))

theorem insertA_mem {m : List (Nat × Nat)} {k v : Nat} {p : Nat × Nat}
    (h : p ∈ insertA m k v) : p = (k, v) ∨ p ∈ m := by
  induction m with
  | nil => simpa [insertA] using h
  | cons q rest ih =>
    by_cases hq : q.1 = k
    · simp only [insertA, if_pos hq] at h
      rcases List.mem_cons.mp h with h1 | h1
      · exact Or.inl h1
      · exact Or.inr (List.mem_cons_of_mem q h1)
    · simp only [insertA, if_neg hq] at h
      rcases List.mem_cons.mp h with h1 | h1
      · exact Or.inr (h1 ▸ List.mem_cons_self q rest)
      · rcases ih h1 with h2 | h2
        · exact Or.inl h2
        · exact Or.inr (List.mem_cons_of_mem q h2)

theorem lookupA_mem {m : List (Nat × Nat)} {k v : Nat}
    (h : lookupA m k = some v) : (k, v) ∈ m := by
  simp only [lookupA] at h
  match hf : m.find? (fun p => p.1 = k) with
  | some p =>
    rw [hf] at h
    have hp := List.find?_some hf
    have hmem := List.mem_of_find?_eq_some hf
    have h1 : p.1 = k := by simpa using hp
    have h2 : p.2 = v := by simpa using h
    have : p = (k, v) := Prod.ext h1 h2
    exact this ▸ hmem
  | none => rw [hf] at h; cases h

/-- Every gid→rune binding produced by the rune loop records a rune that
some priority map resolves to that gid. -/
theorem lookupFold_snd_sound (maps : List (Option (List (Nat × Nat)))) :
    ∀ (runes : List Nat) (acc : List Nat × List (Nat × Nat)),
      (∀ p ∈ acc.2, firstHit maps p.2 = some p.1) →
      ∀ p ∈ (runes.foldl (lookupStep maps) acc).2,
        firstHit maps p.2 = some p.1 := by
  intro runes
  induction runes with
  | nil => intro acc hacc p hp; exact hacc p hp
  | cons r rest ih =>
    intro acc hacc p hp
    refine ih (lookupStep maps acc r) ?_ p hp
    intro q hq
    simp only [lookupStep] at hq
    match hh : firstHit maps r with
    | some ind =>
      rw [hh] at hq
      rcases insertA_mem hq with h1 | h1
      · rw [h1]
        exact hh
      · exact hacc q h1
    | none =>
      rw [hh] at hq
      exact hacc q hq

/-- A rune the priority maps cannot resolve leaves the loop state
untouched, so the whole lookup is the same as without it. -/
theorem lookupFold_erase (maps : List (Option (List (Nat × Nat))))
    (r : Nat) (hr : firstHit maps r = none) :
    ∀ (runes : List Nat) (acc : List Nat × List (Nat × Nat)),
      runes.foldl (lookupStep maps) acc =
        (runes.erase r).foldl (lookupStep maps) acc := by
  intro runes
  induction runes with
  | nil => intro acc; rfl
  | cons x rest ih =>
    intro acc
    by_cases hx : x = r
    · subst hx
      rw [List.erase_cons_head]
      simp only [List.foldl_cons, lookupStep, hr]
    · rw [List.erase_cons_tail (by simpa using hx)]
      simp only [List.foldl_cons]
      exact ih (lookupStep maps acc x)

/-- C8, amended: `LookupRunes` is total (it cannot fail), but unmatched
runes are not reported anywhere: a rune `r` that none of the four
priority subtable maps resolves contributes nothing to either output —
the result is the same as if `r` were absent from the input — and, when
`r ≠ 0` (rune 0 being Go's zero value used for glyph 0), `r` does not
appear in the returned rune list.  There is no unmatched-rune output. -/
theorem c8_lookup_miss (f : Font) (runes : List Nat) (r : Nat)
    (hmiss : firstHit (lookupMaps f) r = none) (hnz : r ≠ 0) :
    lookupRunes f runes = lookupRunes f (runes.erase r) ∧
    r ∉ (lookupRunes f runes).2 := by
  constructor
  · simp only [lookupRunes]
    rw [lookupFold_erase (lookupMaps f) r hmiss runes ([0], [])]
  · simp only [lookupRunes]
    intro hmem
    rcases List.mem_map.mp hmem with ⟨gid, _, hval⟩
    set scanned := runes.foldl (lookupStep (lookupMaps f)) ([0], []) with hs
    have hsound := lookupFold_snd_sound (lookupMaps f) runes ([0], [])
      (by intro p hp; simp at hp)
    simp only [lookupD] at hval
    match hl : lookupA scanned.2 gid with
    | some v =>
      rw [hl] at hval
      simp only [Option.getD_some] at hval
      have hpm := lookupA_mem hl
      have := hsound (gid, v) hpm
      simp only at this
      rw [hval] at this
      rw [this] at hmiss
      cases hmiss
    | none =>
      rw [hl] at hval
      simp only [Option.getD_none] at hval
      exact hnz hval.symm

/-- Witness for `c8_lookup_miss` on `exFont9` with the unmatched rune
0x10FFFF. -/
theorem c8_lookup_miss_witness :
    lookupRunes exFont9 [0, 1114111] = lookupRunes exFont9 [0] ∧
    1114111 ∉ (lookupRunes exFont9 [0, 1114111]).2 := by
  have h := c8_lookup_miss exFont9 [0, 1114111] 1114111 (by decide) (by decide)
  simpa using h

/-- C8, counterexample: on `exFont9` (whose (1,0) subtable maps only
rune 0), looking up the sole rune 0x10FFFF returns glyph list [0] and
rune list [0]; 0x10FFFF appears in neither output, so it is not
"reported separately in the unmatched-rune output" — no such output
exists. -/
theorem c8_counterexample :
    lookupRunes exFont9 [1114111] = ([0], [0]) ∧
    1114111 ∉ (lookupRunes exFont9 [1114111]).1 ∧
    1114111 ∉ (lookupRunes exFont9 [1114111]).2 := by
  decide

/-! ## Subset (src/export.go, lines 543-750) -/

/-- Run `g` on the payload of a present optional table. -/
def optE {α β : Type} (g : α → Except Err β) : Option α → Except Err (Option β)
  | none => Except.ok none
  | some a => Except.map some (g a)

/-- Indexed selection `idxs.map (l[·])`, a Go panic when an index is out
of range. -/
def mapIdxGet {α : Type} (l : List α) : List Nat → Except Err (List α)
  | [] => Except.ok []
  | i :: rest =>
    if h : i < l.length then
      match mapIdxGet l rest with
      | Except.error e => Except.error e
      | Except.ok t => Except.ok (l.get ⟨i, h⟩ :: t)
    else Except.error Err.panicked

/-- The `Subset` rebuild of one cmap subtable: the decoded maps are
replaced wholesale by the new dense numbering (new gid = position of the
matched rune in `runes2`), then the format payload is rebuilt by the
run-length builders for formats 4 and 12; subtables of any other format
are not appended to the new cmap table (the source appends only inside
those two switch cases), modelled by returning none. -/
def subsetSubtable (runes2 : List Nat) (subt : CmapSubtable) :
    Option CmapSubtable :=
  let cmap2 := runes2.enum.foldl (fun m p => insertA m p.2 p.1) []
  let subt1 :=
    { subt with
      cmap := cmap2, charcodeToGID := cmap2,
      runes := runes2, charcodes := runes2 }
  match subt.ctx with
  | CmapCtx.format4 t =>
    let segs := format4Build (fun cc => lookupD subt1.charcodeToGID cc)
      subt1.charcodes
    some { subt1 with ctx := CmapCtx.format4 (mkFormat4 t.language segs) }
  | CmapCtx.format12 t =>
    let gs := buildGroups12 (fun cc => lookupD subt1.charcodeToGID cc)
      subt1.charcodes
    some { subt1 with ctx := CmapCtx.format12 (mkFormat12 t.language gs) }
  | _ => none

/-- `Subset`'s loop over the subtable keys (a missing key is Go's nil
map entry, whose field assignment panics). -/
def subsetSubtablesLoop (runes2 : List Nat) (c : CmapTable) :
    List String → Except Err (List (String × CmapSubtable))
  | [] => Except.ok []
  | nm :: rest =>
    match findSubtable c nm with
    | none => Except.error Err.panicked
    | some subt =>
      match subsetSubtablesLoop runes2 c rest with
      | Except.error e => Except.error e
      | Except.ok tail =>
        match subsetSubtable runes2 subt with
        | some s1 => Except.ok ((nm, s1) :: tail)
        | none => Except.ok tail

/-- The new cmap table `Subset` constructs. -/
def subsetCmap (runes2 : List Nat) (c : CmapTable) : Except Err CmapTable :=
  match subsetSubtablesLoop runes2 c c.subtableKeys with
  | Except.error e => Except.error e
  | Except.ok subts =>
    Except.ok { version := c.version, numTables := u16 subts.length,
                subtableKeys := subts.map Prod.fst, subtables := subts }

/-- The hmtx rebuild of `Subset`: one entry per retained index, each
clamped to the last explicit metric (`gid = min(gid, len-1)`); an empty
source metric list makes the clamp index -1, a Go panic. -/
def subsetHmtx (hm : HmtxTable) (indices : List Nat) : Except Err HmtxTable :=
  if hm.hMetrics.length = 0 then Except.error Err.panicked
  else
    let ms := indices.map (fun gid =>
      hm.hMetrics.getD (min gid (hm.hMetrics.length - 1)) ⟨0, 0⟩)
    Except.ok { hMetrics := ms, leftSideBearings := [] }

/-- The post-table reprojection of `Subset`: `glyphNameIndex` becomes
the identity list 0..numGlyphs-1, `offsets` is truncated, `glyphNames`
is reselected through the retained indices (reading the source font's
name list, a Go panic when an index exceeds it). -/
def subsetPost (p : PostTable) (indices : List Nat) (numGlyphs : Nat) :
    Except Err PostTable :=
  let p1 := if 0 < p.numGlyphs then { p with numGlyphs := u16 numGlyphs } else p
  let p2 := if numGlyphs < p1.glyphNameIndex.length then
    { p1 with glyphNameIndex := (List.range indices.length).map u16 } else p1
  let p3 := if numGlyphs < p2.offsets.length then
    { p2 with offsets := p2.offsets.take numGlyphs } else p2
  if numGlyphs < p3.glyphNames.length then
    match mapIdxGet p.glyphNames indices with
    | Except.error e => Except.error e
    | Except.ok names => Except.ok { p3 with glyphNames := names }
  else Except.ok p3

/-- The glyf/loca rebuild of `Subset`: select the descriptions of the
retained indices in their new dense order and recompute loca over them
(`head` is dereferenced for the offset width, a nil head is a panic). -/
def subsetGlyfLoca (f : Font) (indices : List Nat) :
    Except Err (Option GlyfTable × Option LocaTable) :=
  match f.glyf, f.loca with
  | some gl, some lc =>
    match f.head with
    | none => Except.error Err.panicked
    | some hd =>
      match mapIdxGet gl.descs indices with
      | Except.error e => Except.error e
      | Except.ok descs1 =>
        match locaRebuild (hd.indexToLocFormat = 0) lc descs1 with
        | Except.error e => Except.error e
        | Except.ok lc1 => Except.ok (some ⟨descs1⟩, some lc1)
  | _, _ => Except.ok (none, none)

/-- `Subset`: exact-rune subsetting with dense renumbering.  Tables are
rebuilt in source order (cmap, head, hhea, hmtx with optimization, maxp,
name, os2, post, glyf/loca); `prep`, `cvt` and `fpgm` have no copy block
in this operation and are left nil.  The `name` record loop assigns to
Go range copies, so the name table is carried over unchanged. -/
def subset (f : Font) (runes0 : List Nat) : Except Err Font :=
  let looked := lookupRunes f runes0
  let indices := looked.1
  let runes2 := looked.2
  let numGlyphs := indices.length
  match optE (subsetCmap runes2) f.cmap with
  | Except.error e => Except.error e
  | Except.ok cmap1 =>
    let hhea1 := f.hhea.map (fun hh =>
      { hh with numberOfHMetrics := min hh.numberOfHMetrics (u16 numGlyphs) })
    match optE (fun hm => subsetHmtx hm indices) f.hmtx with
    | Except.error e => Except.error e
    | Except.ok hmtx1 =>
      let opt := optimizeHmtxPair hhea1 hmtx1
      let maxp1 := f.maxp.map (fun mp => { mp with numGlyphs := u16 numGlyphs })
      match optE (fun p => subsetPost p indices numGlyphs) f.post with
      | Except.error e => Except.error e
      | Except.ok post1 =>
        match subsetGlyfLoca f indices with
        | Except.error e => Except.error e
        | Except.ok (glyf1, loca1) =>
          Except.ok
            { ot := f.ot, trec := f.trec, head := f.head,
              maxp := maxp1, hhea := opt.1, hmtx := opt.2, loca := loca1,
              glyf := glyf1, prep := none, cvt := none, fpgm := none,
              name := f.name, os2 := f.os2, post := post1, cmap := cmap1 }

/-! ## SubsetKeepIndices / SubsetKeepRunes (src/export.go, lines 143-286) -/

/-- `GetComponents` of the glyf table.  Modelled from the spec: "query
its component glyph indices (empty for simple glyphs)"; the method body
(table_glyf.go) is not under src/.  An out-of-range glyph index yields
an error, matching the call sites' error handling. -/
def getComponents (g : GlyfTable) (gid : Nat) : Except Err (List Nat) :=
  if h : gid < g.descs.length then Except.ok (g.descs.get ⟨gid, h⟩).components
  else Except.error Err.rangeCheck

/-- One round of the dependency-closure worklist: scan every glyph of
`toscan`, and append each component not yet in the visited set to both
the visited set and the next worklist (the membership check sees the
additions made earlier in the same round, as the Go map does). -/
def scanRound (g : GlyfTable) :
    List Nat → List Nat → List Nat → Except Err (List Nat × List Nat)
  | [], visited, newgids => Except.ok (visited, newgids)
  | gid :: rest, visited, newgids =>
    match getComponents g gid with
    | Except.error e => Except.error e
    | Except.ok comps =>
      let folded := comps.foldl (fun (acc : List Nat × List Nat) cgid =>
        if cgid ∈ acc.1 then acc else (acc.1 ++ [cgid], acc.2 ++ [cgid]))
        (visited, newgids)
      scanRound g rest folded.1 folded.2

/-- The worklist loop: repeat rounds until no new glyph indices appear.
The Go loop needs no fuel (the visited set bounds it); the model makes
the rounds explicit with a fuel argument and proves below that the
bound `closureFuel` never runs out, cycles included. -/
def expandRounds (g : GlyfTable) :
    Nat → List Nat → List Nat → Except Err (List Nat)
  | 0, _, _ => Except.error Err.fuelOut
  | fuel + 1, visited, toscan =>
    if toscan.isEmpty then Except.ok visited
    else
      match scanRound g toscan visited [] with
      | Except.error e => Except.error e
      | Except.ok (v1, new) => expandRounds g fuel v1 new

/-- All component indices appearing anywhere in the glyf table. -/
def allComps (g : GlyfTable) : List Nat :=
  g.descs.flatMap GlyphDesc.components

/-- Fuel that suffices for the worklist: the visited set can only grow
inside `seed ++ allComps g`. -/
def closureFuel (g : GlyfTable) (seed : List Nat) : Nat :=
  seed.length + (allComps g).length + 2

/-- The dependency closure of `SubsetKeepIndices`: seed the visited set
(Go seeds a map, i.e. set semantics — modelled by deduplication) and run
worklist rounds.  With no glyf table, a nonempty worklist dereferences
the nil table (a panic); an empty one never calls `GetComponents`. -/
def keepClosure (f : Font) (indices : List Nat) : Except Err (List Nat) :=
  let seed := indices.dedup
  match f.glyf with
  | none => if seed.isEmpty then Except.ok seed else Except.error Err.panicked
  | some g => expandRounds g (closureFuel g seed) seed seed

/-- The glyf-clearing loop of `SubsetKeepIndices`, from position `i`:
empty the raw blob of every glyph whose index is outside the expanded
set (the component list, being derived from the blob, empties with
it). -/
def clearDescsFrom (included : List Nat) : Nat → List GlyphDesc → List GlyphDesc
  | _, [] => []
  | i, d :: rest =>
    (if i ∈ included then d else { d with raw := [], components := [] }) ::
      clearDescsFrom included (i + 1) rest

/-- The glyf-clearing loop of `SubsetKeepIndices`. -/
def clearDescs (included : List Nat) (descs : List GlyphDesc) :
    List GlyphDesc :=
  clearDescsFrom included 0 descs

/-- `SubsetKeepIndices`: expand the indices through the composite
closure, copy every table, clear the glyf content of glyphs outside the
expanded set and recompute loca over the full glyph list, then delegate
to `SubsetFirst (maxIncludedIndex + 1)`. -/
def subsetKeepIndices (f : Font) (indices : List Nat) : Except Err Font :=
  match keepClosure f indices with
  | Except.error e => Except.error e
  | Except.ok included =>
    let opt := optimizeHmtxPair f.hhea f.hmtx
    match (match f.glyf, f.loca with
           | some gl, some lc =>
             match f.head with
             | none => Except.error Err.panicked
             | some hd =>
               let descs1 := clearDescs included gl.descs
               match locaRebuild (hd.indexToLocFormat = 0) lc descs1 with
               | Except.error e => Except.error e
               | Except.ok lc1 =>
                 Except.ok (some (⟨descs1⟩ : GlyfTable), some lc1)
           | _, _ => Except.ok ((none : Option GlyfTable),
                                (none : Option LocaTable))) with
    | Except.error e => Except.error e
    | Except.ok (glyf1, loca1) =>
      let inter : Font :=
        { ot := f.ot, trec := f.trec, head := f.head, maxp := f.maxp,
          hhea := opt.1, hmtx := opt.2, loca := loca1, glyf := glyf1,
          prep := f.prep, cvt := f.cvt, fpgm := f.fpgm, name := f.name,
          os2 := f.os2, post := f.post, cmap := f.cmap }
      let maxgid := included.foldl max 0
      subsetFirst inter (maxgid + 1)

/-- `SubsetKeepRunes`: rune lookup composed with the index-preserving
prune. -/
def subsetKeepRunes (f : Font) (runes : List Nat) : Except Err Font :=
  subsetKeepIndices f (lookupRunes f runes).1

/-- The glyf table of the SOURCE font after `SubsetKeepIndices` returns:
`*newfnt.glyf = *f.font.glyf` copies the struct but shares the `descs`
backing array, so the loop `newfnt.glyf.descs[i].raw = nil` writes
through to the receiver's own glyph descriptions.  The clearing happens
exactly when the closure succeeded and both glyf and loca are present
(the block that contains the loop). -/
def subsetKeepIndicesSourceGlyf (f : Font) (indices : List Nat) :
    Option GlyfTable :=
  match f.glyf with
  | none => none
  | some gl =>
    match keepClosure f indices with
    | Except.error _ => some gl
    | Except.ok included =>
      match f.loca with
      | none => some gl
      | some _ => some ⟨clearDescs included gl.descs⟩

/-- A two-glyph font (both simple) used to exhibit the source-mutation
bug of `SubsetKeepIndices`. -/
def exFont3 : Font :=
  { ot := some (), trec := some ⟨[]⟩, head := some ⟨0, 0⟩,
    maxp := some ⟨2⟩, hhea := none, hmtx := none,
    loca := some ⟨[0, 1, 2], []⟩,
    glyf := some ⟨[⟨[7, 7], []⟩, ⟨[8, 8], []⟩]⟩,
    prep := none, cvt := none, fpgm := none, name := none, os2 := none,
    post := none, cmap := none }

/-- C3: `SubsetKeepIndices` mutates its receiver.  On `exFont3`, keeping
only glyph 0 succeeds, yet the receiver's own glyf table afterwards has
glyph 1's raw content cleared: the new model's struct-copied `descs`
slice aliases the receiver's backing array. -/
theorem c3_subsetKeepIndices_mutates_source :
    (subsetKeepIndices exFont3 [0]).toOption.isSome = true ∧
    subsetKeepIndicesSourceGlyf exFont3 [0] =
      some ⟨[⟨[7, 7], []⟩, ⟨[], []⟩]⟩ ∧
    exFont3.glyf = some ⟨[⟨[7, 7], []⟩, ⟨[8, 8], []⟩]⟩ ∧
    subsetKeepIndicesSourceGlyf exFont3 [0] ≠ exFont3.glyf := by
  refine ⟨?_, ?_, ?_, ?_⟩ <;> decide

/-! ## correctness of the dependency closure (claim C4) -/

/-- The component list of a glyph index (empty when out of range). -/
def compsOf (g : GlyfTable) (gid : Nat) : List Nat :=
  (g.descs.getD gid ⟨[], []⟩).components

theorem getComponents_ok {g : GlyfTable} {gid : Nat} {cs : List Nat}
    (h : getComponents g gid = Except.ok cs) :
    gid < g.descs.length ∧ cs = compsOf g gid := by
  by_cases hlt : gid < g.descs.length
  · refine ⟨hlt, ?_⟩
    simp only [getComponents, dif_pos hlt] at h
    have := h
    simp only [Except.ok.injEq] at this
    rw [← this, compsOf]
    congr 1
    exact (List.getD_eq_get g.descs _ hlt).symm
  · simp only [getComponents, dif_neg hlt] at h
    cases h

theorem getComponents_error {g : GlyfTable} {gid : Nat} {e : Err}
    (h : getComponents g gid = Except.error e) : e = Err.rangeCheck := by
  by_cases hlt : gid < g.descs.length
  · simp [getComponents, dif_pos hlt] at h
  · simp only [getComponents, dif_neg hlt, Except.error.injEq] at h
    exact h.symm

theorem compsOf_subset_allComps {g : GlyfTable} {gid : Nat}
    (h : gid < g.descs.length) : compsOf g gid ⊆ allComps g := by
  intro x hx
  rw [compsOf, List.getD_eq_get g.descs _ h] at hx
  exact List.mem_flatMap.mpr ⟨g.descs.get ⟨gid, h⟩, List.get_mem _ _ _, hx⟩

/-- The membership-checked collection of one glyph's components: the
visited and new lists grow by the same fresh suffix, every component
ends up visited, and nodup is preserved. -/
theorem closureFold_spec (comps : List Nat) :
    ∀ (vis new : List Nat),
      ∃ δ, (comps.foldl (fun (acc : List Nat × List Nat) cgid =>
              if cgid ∈ acc.1 then acc
              else (acc.1 ++ [cgid], acc.2 ++ [cgid])) (vis, new)).1 =
            vis ++ δ ∧
        (comps.foldl (fun (acc : List Nat × List Nat) cgid =>
              if cgid ∈ acc.1 then acc
              else (acc.1 ++ [cgid], acc.2 ++ [cgid])) (vis, new)).2 =
            new ++ δ ∧
        δ ⊆ comps ∧ comps ⊆ vis ++ δ ∧ (vis.Nodup → (vis ++ δ).Nodup) := by
  induction comps with
  | nil =>
    intro vis new
    exact ⟨[], by simp, by simp, by simp, by simp, fun h => by simpa using h⟩
  | cons c cs ih =>
    intro vis new
    by_cases hc : c ∈ vis
    · obtain ⟨δ, h1, h1b, h2, h3, h4⟩ := ih vis new
      refine ⟨δ, ?_, ?_, ?_, ?_, h4⟩
      · simpa [List.foldl_cons, hc] using h1
      · simpa [List.foldl_cons, hc] using h1b
      · exact fun x hx => List.mem_cons_of_mem c (h2 hx)
      · intro x hx
        rcases List.mem_cons.mp hx with h | h
        · exact h ▸ List.mem_append_left δ hc
        · exact h3 h
    · obtain ⟨δ, h1, h1b, h2, h3, h4⟩ := ih (vis ++ [c]) (new ++ [c])
      refine ⟨c :: δ, ?_, ?_, ?_, ?_, ?_⟩
      · rw [List.foldl_cons]
        simp only [hc, if_neg, ite_false]
        rw [h1, List.append_assoc]
        rfl
      · rw [List.foldl_cons]
        simp only [hc, if_neg, ite_false]
        rw [h1b, List.append_assoc]
        rfl
      · intro x hx
        rcases List.mem_cons.mp hx with h | h
        · exact h ▸ List.mem_cons_self c cs
        · exact List.mem_cons_of_mem c (h2 h)
      · intro x hx
        rcases List.mem_cons.mp hx with h | h
        · subst h
          exact List.mem_append_right vis (List.mem_cons_self x δ)
        · have := h3 h
          rw [List.append_assoc] at this
          simpa using this
      · intro hnd
        have : (vis ++ [c]).Nodup := by
          rw [List.nodup_append]
          exact ⟨hnd, List.nodup_singleton c, by simpa using hc⟩
        have h5 := h4 this
        rw [List.append_assoc] at h5
        simpa using h5

/-- One worklist round: the visited set grows by exactly the new
worklist, additions come from component lists of scanned glyphs, every
scanned glyph is in range with its components all visited, and nodup is
preserved. -/
theorem scanRound_spec (g : GlyfTable) :
    ∀ (toscan visited newgids v1 n1 : List Nat),
      scanRound g toscan visited newgids = Except.ok (v1, n1) →
      ∃ δ, v1 = visited ++ δ ∧ n1 = newgids ++ δ ∧ δ ⊆ allComps g ∧
        (∀ gid ∈ toscan, gid < g.descs.length ∧ compsOf g gid ⊆ v1) ∧
        (visited.Nodup → v1.Nodup) := by
  intro toscan
  induction toscan with
  | nil =>
    intro visited newgids v1 n1 h
    simp only [scanRound, Except.ok.injEq, Prod.mk.injEq] at h
    exact ⟨[], by simp [h.1.symm], by simp [h.2.symm], by simp,
      by simp, fun hn => h.1 ▸ hn⟩
  | cons gid rest ih =>
    intro visited newgids v1 n1 h
    simp only [scanRound] at h
    match hgc : getComponents g gid with
    | Except.error e => rw [hgc] at h; cases h
    | Except.ok comps =>
      rw [hgc] at h
      obtain ⟨hlt, hcs⟩ := getComponents_ok hgc
      obtain ⟨δ1, hf1, hf1b, hf2, hf3, hf4⟩ := closureFold_spec comps visited newgids
      have h0 := ih _ _ v1 n1 h
      rw [hf1, hf1b] at h0
      obtain ⟨δ2, h1, h2, h3, h4, h5⟩ := h0
      refine ⟨δ1 ++ δ2, ?_, ?_, ?_, ?_, ?_⟩
      · rw [h1, List.append_assoc]
      · rw [h2, List.append_assoc]
      · intro x hx
        rcases List.mem_append.mp hx with hm | hm
        · exact compsOf_subset_allComps hlt (hcs ▸ hf2 hm)
        · exact h3 hm
      · intro gid2 hg2
        rcases List.mem_cons.mp hg2 with hm | hm
        · subst hm
          refine ⟨hlt, ?_⟩
          intro x hx
          have : x ∈ visited ++ δ1 := hf3 (hcs ▸ hx)
          rw [h1]
          exact List.mem_append_left δ2 this
        · exact h4 gid2 hm
      · intro hn
        exact h5 (hf4 hn)

theorem scanRound_error (g : GlyfTable) :
    ∀ (toscan visited newgids : List Nat) (e : Err),
      scanRound g toscan visited newgids = Except.error e →
      e = Err.rangeCheck := by
  intro toscan
  induction toscan with
  | nil => intro visited newgids e h; simp [scanRound] at h
  | cons gid rest ih =>
    intro visited newgids e h
    simp only [scanRound] at h
    match hgc : getComponents g gid with
    | Except.error e1 =>
      rw [hgc] at h
      simp only [Except.error.injEq] at h
      exact h ▸ getComponents_error hgc
    | Except.ok comps =>
      rw [hgc] at h
      exact ih _ _ e h

/-- Soundness of the worklist loop: on success the result contains the
initial visited set, every member is a valid glyph index, and the result
is closed under components. -/
theorem expandRounds_sound (g : GlyfTable) :
    ∀ (fuel : Nat) (visited toscan V : List Nat),
      (∀ gid ∈ visited, gid ∉ toscan →
        gid < g.descs.length ∧ compsOf g gid ⊆ visited) →
      expandRounds g fuel visited toscan = Except.ok V →
      visited ⊆ V ∧ ∀ gid ∈ V, gid < g.descs.length ∧ compsOf g gid ⊆ V := by
  intro fuel
  induction fuel with
  | zero => intro visited toscan V _ h; simp [expandRounds] at h
  | succ m ih =>
    intro visited toscan V hinv h
    simp only [expandRounds] at h
    by_cases hts : toscan.isEmpty
    · rw [if_pos hts] at h
      simp only [Except.ok.injEq] at h
      subst h
      refine ⟨fun x hx => hx, ?_⟩
      intro gid hg
      have : gid ∉ toscan := by
        rw [List.isEmpty_iff] at hts
        simp [hts]
      exact hinv gid hg this
    · rw [if_neg hts] at h
      match hsc : scanRound g toscan visited [] with
      | Except.error e => rw [hsc] at h; cases h
      | Except.ok (v1, n1) =>
        rw [hsc] at h
        obtain ⟨δ, hv1, hn1, hδ, hscan, hnd⟩ := scanRound_spec g toscan visited [] v1 n1 hsc
        have hinv1 : ∀ gid ∈ v1, gid ∉ n1 →
            gid < g.descs.length ∧ compsOf g gid ⊆ v1 := by
          intro gid hg hn
          rw [hv1] at hg
          rcases List.mem_append.mp hg with hm | hm
          · by_cases hts2 : gid ∈ toscan
            · exact hscan gid hts2
            · obtain ⟨ha, hb⟩ := hinv gid hm hts2
              exact ⟨ha, fun x hx => hv1 ▸ List.mem_append_left δ (hb hx)⟩
          · exfalso
            apply hn
            rw [hn1]
            simpa using hm
        obtain ⟨hsub, hcl⟩ := ih v1 n1 V hinv1 h
        refine ⟨?_, hcl⟩
        intro x hx
        exact hsub (hv1 ▸ List.mem_append_left δ hx)

/-- The fuel bound never runs out: every non-final round strictly grows
the nodup visited set inside the fixed universe `U`. -/
theorem expandRounds_no_fuelOut (g : GlyfTable) (U : List Nat) :
    ∀ (fuel : Nat) (visited toscan : List Nat),
      visited.Nodup → visited ⊆ U → allComps g ⊆ U →
      U.dedup.length + 2 ≤ fuel + visited.length →
      expandRounds g fuel visited toscan ≠ Except.error Err.fuelOut := by
  intro fuel
  induction fuel with
  | zero =>
    intro visited toscan hnd hsub hac harith
    exfalso
    have hsub2 : visited ⊆ U.dedup := fun x hx => List.mem_dedup.mpr (hsub hx)
    have := (List.subperm_of_subset hnd hsub2).length_le
    omega
  | succ m ih =>
    intro visited toscan hnd hsub hac harith
    simp only [expandRounds]
    by_cases hts : toscan.isEmpty
    · rw [if_pos hts]
      intro h
      cases h
    · rw [if_neg hts]
      match hsc : scanRound g toscan visited [] with
      | Except.error e =>
        have := scanRound_error g toscan visited [] e hsc
        subst this
        intro h
        cases h
      | Except.ok (v1, n1) =>
        obtain ⟨δ, hv1, hn1, hδ, _, hndp⟩ := scanRound_spec g toscan visited [] v1 n1 hsc
        simp only [List.nil_append] at hn1
        subst hn1
        by_cases hδe : n1.isEmpty
        · rw [List.isEmpty_iff] at hδe
          subst hδe
          have hm : 1 ≤ m := by
            have hsub2 : visited ⊆ U.dedup := fun x hx => List.mem_dedup.mpr (hsub hx)
            have := (List.subperm_of_subset hnd hsub2).length_le
            omega
          match m, hm with
          | m1 + 1, _ =>
            simp only [expandRounds, List.isEmpty_nil, if_pos]
            intro h
            cases h
        · apply ih v1 n1 (hndp hnd)
          · intro x hx
            rw [hv1] at hx
            rcases List.mem_append.mp hx with hm | hm
            · exact hsub hm
            · exact hac (hδ hm)
          · exact hac
          · have hlen : v1.length = visited.length + n1.length := by
              rw [hv1]
              simp
            have hne : n1.length ≠ 0 := by
              intro hz
              exact hδe (List.isEmpty_iff.mpr (List.length_eq_zero.mp hz))
            omega

/-- The dependency closure never exhausts its fuel: the Go worklist loop
terminates, cyclic component references included. -/
theorem keepClosure_no_fuelOut (f : Font) (indices : List Nat) :
    keepClosure f indices ≠ Except.error Err.fuelOut := by
  rw [keepClosure]
  match f.glyf with
  | none =>
    by_cases h : (indices.dedup).isEmpty <;> simp [h]
  | some g =>
    apply expandRounds_no_fuelOut g (indices.dedup ++ allComps g)
    · exact List.nodup_dedup indices
    · exact fun x hx => List.mem_append_left _ hx
    · exact fun x hx => List.mem_append_right _ hx
    · have h1 : (indices.dedup ++ allComps g).dedup.length ≤
          indices.dedup.length + (allComps g).length := by
        calc (indices.dedup ++ allComps g).dedup.length
            ≤ (indices.dedup ++ allComps g).length :=
              (List.dedup_sublist _).length_le
          _ = indices.dedup.length + (allComps g).length := by simp
      rw [closureFuel]
      omega

/-- Soundness of `keepClosure`: the result contains the seed, every
member is in range, and the result is closed under components. -/
theorem keepClosure_sound (f : Font) (g : GlyfTable) (S V : List Nat)
    (hg : f.glyf = some g) (h : keepClosure f S = Except.ok V) :
    S ⊆ V ∧ ∀ gid ∈ V, gid < g.descs.length ∧ compsOf g gid ⊆ V := by
  rw [keepClosure, hg] at h
  have hs := expandRounds_sound g (closureFuel g S.dedup) S.dedup S.dedup V
    (fun gid hgm hnm => absurd hgm hnm) h
  exact ⟨fun x hx => hs.1 (List.mem_dedup.mpr hx), hs.2⟩

/-- Reachability through composite-component references, starting from
the requested index set. -/
inductive ReachableFrom (g : GlyfTable) (S : List Nat) : Nat → Prop where
  | seed {gid : Nat} : gid ∈ S → ReachableFrom g S gid
  | comp {gid1 gid2 : Nat} : ReachableFrom g S gid1 →
      gid2 ∈ compsOf g gid1 → ReachableFrom g S gid2

theorem reachable_mem_closure {f : Font} {g : GlyfTable} {S V : List Nat}
    {gid : Nat} (hg : f.glyf = some g) (h : keepClosure f S = Except.ok V)
    (hr : ReachableFrom g S gid) : gid ∈ V := by
  obtain ⟨hseed, hclosed⟩ := keepClosure_sound f g S V hg h
  induction hr with
  | seed hm => exact hseed hm
  | comp _ hm ih => exact (hclosed _ ih).2 hm

theorem clearDescsFrom_length (included : List Nat) :
    ∀ (i : Nat) (l : List GlyphDesc),
      (clearDescsFrom included i l).length = l.length := by
  intro i l
  induction l generalizing i with
  | nil => simp [clearDescsFrom]
  | cons d rest ih => simp [clearDescsFrom, ih]

theorem clearDescsFrom_getD (included : List Nat) (d0 : GlyphDesc) :
    ∀ (l : List GlyphDesc) (i j : Nat), i + j ∈ included →
      (clearDescsFrom included i l).getD j d0 = l.getD j d0 := by
  intro l
  induction l with
  | nil => intro i j _; simp [clearDescsFrom]
  | cons d rest ih =>
    intro i j hmem
    match j with
    | 0 =>
      have : i ∈ included := by simpa using hmem
      simp [clearDescsFrom, this]
    | j1 + 1 =>
      have : (i + 1) + j1 ∈ included := by
        have e : i + 1 + j1 = i + (j1 + 1) := by omega
        rw [e]
        exact hmem
      simp only [clearDescsFrom, List.getD_cons_succ]
      exact ih (i + 1) j1 this

theorem clearDescs_length (included : List Nat) (l : List GlyphDesc) :
    (clearDescs included l).length = l.length :=
  clearDescsFrom_length included 0 l

theorem clearDescs_getD (included : List Nat) (l : List GlyphDesc)
    (j : Nat) (d0 : GlyphDesc) (hmem : j ∈ included) :
    (clearDescs included l).getD j d0 = l.getD j d0 :=
  clearDescsFrom_getD included d0 l 0 j (by simpa using hmem)

theorem getD_take {α : Type} (d : α) :
    ∀ (l : List α) (n i : Nat), i < n →
      (l.take n).getD i d = l.getD i d := by
  intro l
  induction l with
  | nil => intro n i _; simp
  | cons a t ih =>
    intro n i hin
    match n, i with
    | n1 + 1, 0 => simp
    | n1 + 1, i1 + 1 =>
      simp only [List.take_succ_cons, List.getD_cons_succ]
      exact ih n1 i1 (by omega)

theorem foldl_max_facts (l : List Nat) :
    ∀ (a : Nat), (∀ x ∈ l, x ≤ l.foldl max a) ∧ a ≤ l.foldl max a := by
  induction l with
  | nil => intro a; exact ⟨by simp, le_rfl⟩
  | cons b t ih =>
    intro a
    obtain ⟨h1, h2⟩ := ih (max a b)
    refine ⟨?_, ?_⟩
    · intro x hx
      rcases List.mem_cons.mp hx with hm | hm
      · subst hm
        calc x ≤ max a x := le_max_right a x
          _ ≤ t.foldl max (max a x) := h2
          _ = (x :: t).foldl max a := by simp [List.foldl_cons]
      · simpa [List.foldl_cons] using h1 x hm
    · calc a ≤ max a b := le_max_left a b
        _ ≤ t.foldl max (max a b) := h2
        _ = (b :: t).foldl max a := by simp [List.foldl_cons]

/-- Shape of a successful `subsetFirst`: either a no-op returning the
receiver, or a rebuild whose maxp, head, glyf and loca are as
computed. -/
theorem subsetFirst_ok_shape (f : Font) (n : Nat) (res : Font)
    (h : subsetFirst f n = Except.ok res) :
    ∃ mp, f.maxp = some mp ∧
      ((mp.numGlyphs ≤ n ∧ res = f) ∨
       (n < mp.numGlyphs ∧
        res.maxp = some { numGlyphs := u16 n } ∧
        res.head = f.head ∧
        ∃ g1 l1, subsetFirstGlyfLoca f n = Except.ok (g1, l1) ∧
          res.glyf = g1 ∧ res.loca = l1)) := by
  match hmp : f.maxp with
  | none => simp [subsetFirst, hmp] at h
  | some mp =>
    by_cases hle : mp.numGlyphs ≤ n
    · simp only [subsetFirst, hmp, if_pos hle, Except.ok.injEq] at h
      exact ⟨mp, rfl, Or.inl ⟨hle, h.symm⟩⟩
    · match hgl : subsetFirstGlyfLoca f n with
      | Except.error e => simp [subsetFirst, hmp, if_neg hle, hgl] at h
      | Except.ok (g1, l1) =>
        match hcm : f.cmap with
        | none =>
          simp only [subsetFirst, hmp, if_neg hle, hgl, hcm,
            Except.ok.injEq] at h
          refine ⟨mp, rfl, Or.inr ⟨by omega, ?_, ?_, g1, l1, rfl, ?_, ?_⟩⟩ <;>
            rw [← h]
        | some c =>
          match hsc : subsetFirstCmap n c with
          | Except.error e =>
            simp [subsetFirst, hmp, if_neg hle, hgl, hcm, hsc] at h
          | Except.ok c1 =>
            simp only [subsetFirst, hmp, if_neg hle, hgl, hcm, hsc,
              Except.ok.injEq] at h
            refine ⟨mp, rfl, Or.inr ⟨by omega, ?_, ?_, g1, l1, rfl, ?_, ?_⟩⟩ <;>
              rw [← h]

/-- Shape of a successful `subsetFirstGlyfLoca` when glyf, loca and head
are present. -/
theorem subsetFirstGlyfLoca_ok (f : Font) (n : Nat)
    (g1 : Option GlyfTable) (l1 : Option LocaTable)
    (gl : GlyfTable) (lc : LocaTable) (hd : HeadTable)
    (hg : f.glyf = some gl) (hl : f.loca = some lc) (hh : f.head = some hd)
    (h : subsetFirstGlyfLoca f n = Except.ok (g1, l1)) :
    n ≤ gl.descs.length ∧ g1 = some ⟨gl.descs.take n⟩ ∧
    ∃ lc1, l1 = some lc1 ∧
      locaRebuild (hd.indexToLocFormat = 0) lc (gl.descs.take n) =
        Except.ok lc1 := by
  by_cases hlen : gl.descs.length < n
  · simp [subsetFirstGlyfLoca, hg, hl, hh, if_pos hlen] at h
  · match hlr : locaRebuild (hd.indexToLocFormat = 0) lc (gl.descs.take n) with
    | Except.error e =>
      simp [subsetFirstGlyfLoca, hg, hl, hh, if_neg hlen, hlr] at h
    | Except.ok lc1 =>
      simp only [subsetFirstGlyfLoca, hg, hl, hh, if_neg hlen, hlr,
        Except.ok.injEq, Prod.mk.injEq] at h
      exact ⟨by omega, h.1.symm, lc1, h.2.symm, rfl⟩

/-- C4: every glyph index reachable from the requested set through
composite-component references is retained by `SubsetKeepIndices` at its
original, unrenumbered index with its raw glyf content intact, and the
worklist computation terminates (its fuel bound is never exhausted) even
when component references form a cycle. -/
theorem c4_closure_retained :
    (∀ (f : Font) (S : List Nat), keepClosure f S ≠ Except.error Err.fuelOut) ∧
    (∀ (f : Font) (S : List Nat) (res : Font) (gl : GlyfTable) (gid : Nat),
       f.glyf = some gl → f.loca.isSome = true →
       subsetKeepIndices f S = Except.ok res →
       ReachableFrom gl S gid →
       ∃ glr, res.glyf = some glr ∧ gid < glr.descs.length ∧
         (glr.descs.getD gid ⟨[], []⟩).raw =
           (gl.descs.getD gid ⟨[], []⟩).raw) := by
  constructor
  · exact keepClosure_no_fuelOut
  · intro f S res gl gid hg hls h hr
    match hlc : f.loca with
    | none => rw [hlc] at hls; cases hls
    | some lc =>
    match hclo : keepClosure f S with
    | Except.error e => simp [subsetKeepIndices, hclo] at h
    | Except.ok included =>
      have hgid : gid ∈ included := reachable_mem_closure hg hclo hr
      have hlt : gid < gl.descs.length :=
        ((keepClosure_sound f gl S included hg hclo).2 gid hgid).1
      match hhd : f.head with
      | none => simp [subsetKeepIndices, hclo, hg, hlc, hhd] at h
      | some hd =>
        match hlr : locaRebuild (hd.indexToLocFormat = 0) lc
            (clearDescs included gl.descs) with
        | Except.error e =>
          simp [subsetKeepIndices, hclo, hg, hlc, hhd, hlr] at h
        | Except.ok lc1 =>
          simp only [subsetKeepIndices, hclo, hg, hlc, hhd, hlr] at h
          set descs1 := clearDescs included gl.descs with hd1
          set inter : Font :=
            { ot := f.ot, trec := f.trec, head := some hd,
              maxp := f.maxp, hhea := (optimizeHmtxPair f.hhea f.hmtx).1,
              hmtx := (optimizeHmtxPair f.hhea f.hmtx).2,
              loca := some lc1, glyf := some ⟨descs1⟩,
              prep := f.prep, cvt := f.cvt, fpgm := f.fpgm,
              name := f.name, os2 := f.os2, post := f.post,
              cmap := f.cmap } with hinter
          have h2 : subsetFirst inter (included.foldl max 0 + 1) =
              Except.ok res := h
          have hraw : (descs1.getD gid ⟨[], []⟩).raw =
              (gl.descs.getD gid ⟨[], []⟩).raw := by
            rw [hd1, clearDescs_getD included gl.descs gid ⟨[], []⟩ hgid]
          have hlen1 : descs1.length = gl.descs.length := by
            rw [hd1]
            exact clearDescs_length included gl.descs
          obtain ⟨mp, hmp, hcase⟩ := subsetFirst_ok_shape inter _ res h2
          rcases hcase with ⟨_, hres⟩ | ⟨hn, _, _, g1, l1, hglo, hresg, _⟩
          · subst hres
            refine ⟨⟨descs1⟩, rfl, ?_, hraw⟩
            simpa [hlen1] using hlt
          · have hginter : inter.glyf = some (⟨descs1⟩ : GlyfTable) := rfl
            have hlinter : inter.loca = some lc1 := rfl
            have hhinter : inter.head = some hd := rfl
            obtain ⟨hnle, hg1, _⟩ :=
              subsetFirstGlyfLoca_ok inter _ g1 l1 ⟨descs1⟩ lc1 hd
                hginter hlinter hhinter hglo
            have hgm : gid < included.foldl max 0 + 1 := by
              have := (foldl_max_facts included 0).1 gid hgid
              omega
            refine ⟨⟨descs1.take (included.foldl max 0 + 1)⟩, ?_, ?_, ?_⟩
            · rw [hresg, hg1]
            · simp only [List.length_take]
              omega
            · rw [getD_take _ descs1 _ gid hgm]
              exact hraw

/-- A three-glyph glyf table in which glyph 1 is a composite referencing
glyph 2. -/
def exGlyfC4 : GlyfTable :=
  ⟨[⟨[1], []⟩, ⟨[2], [2]⟩, ⟨[3], []⟩]⟩

/-- A font around `exGlyfC4`, used to instantiate the closure claim. -/
def exFontC4 : Font :=
  { ot := some (), trec := some ⟨[]⟩, head := some ⟨0, 0⟩,
    maxp := some ⟨3⟩, hhea := none, hmtx := none,
    loca := some ⟨[0, 1, 2, 3], []⟩, glyf := some exGlyfC4,
    prep := none, cvt := none, fpgm := none, name := none, os2 := none,
    post := none, cmap := none }

/-- Witness for `c4_closure_retained`: keeping glyph 1 of `exFontC4`
retains its component glyph 2 with raw content intact. -/
theorem c4_closure_retained_witness :
    keepClosure exFontC4 [1] ≠ Except.error Err.fuelOut ∧
    ∃ res, subsetKeepIndices exFontC4 [1] = Except.ok res ∧
      ∃ glr, res.glyf = some glr ∧ 2 < glr.descs.length ∧
        (glr.descs.getD 2 ⟨[], []⟩).raw =
          (exGlyfC4.descs.getD 2 ⟨[], []⟩).raw :=
  ⟨c4_closure_retained.1 exFontC4 [1],
   _, rfl,
   c4_closure_retained.2 exFontC4 [1] _ exGlyfC4 2 rfl (by decide) rfl
     (ReachableFrom.comp
       (ReachableFrom.seed (show (1 : Nat) ∈ [1] by decide))
       (show (2 : Nat) ∈ compsOf exGlyfC4 1 by decide))⟩

/-! ## count consistency (claim C2) -/

/-- The number of loca offset entries, for the offset width selected by
`head.indexToLocFormat`. -/
def locaEntries (hd : HeadTable) (lc : LocaTable) : Nat :=
  if hd.indexToLocFormat = 0 then lc.offsetsShort.length
  else lc.offsetsLong.length

theorem locaRebuild_entries (hd : HeadTable) (src : LocaTable)
    (descs : List GlyphDesc) (lc1 : LocaTable)
    (h : locaRebuild (hd.indexToLocFormat = 0) src descs = Except.ok lc1) :
    locaEntries hd lc1 = descs.length + 1 := by
  by_cases hs : hd.indexToLocFormat = 0
  · match ho : src.offsetsShort with
    | [] => simp [locaRebuild, hs, ho] at h
    | o0 :: rest =>
      simp only [locaRebuild, hs, decide_True, if_true, ho,
        Except.ok.injEq] at h
      rw [← h, locaEntries]
      simp [hs, locaAccum16_length]
  · match ho : src.offsetsLong with
    | [] => simp [locaRebuild, hs, ho] at h
    | o0 :: rest =>
      simp only [locaRebuild, hs, decide_False, Bool.false_eq_true,
        if_false, ho, Except.ok.injEq] at h
      rw [← h, locaEntries]
      simp [hs, locaAccum32_length]

theorem mapIdxGet_length {α : Type} (l : List α) :
    ∀ (idxs : List Nat) (t : List α),
      mapIdxGet l idxs = Except.ok t → t.length = idxs.length := by
  intro idxs
  induction idxs with
  | nil =>
    intro t h
    simp only [mapIdxGet, Except.ok.injEq] at h
    simp [← h]
  | cons i rest ih =>
    intro t h
    by_cases hlt : i < l.length
    · simp only [mapIdxGet, dif_pos hlt] at h
      match hm : mapIdxGet l rest with
      | Except.error e => rw [hm] at h; cases h
      | Except.ok t1 =>
        rw [hm] at h
        simp only [Except.ok.injEq] at h
        rw [← h]
        simp [ih t1 hm]
    · simp [mapIdxGet, dif_neg hlt] at h

/-- Shape of a successful `subsetGlyfLoca` when glyf, loca and head are
present. -/
theorem subsetGlyfLoca_ok (f : Font) (idxs : List Nat)
    (g1 : Option GlyfTable) (l1 : Option LocaTable)
    (gl : GlyfTable) (lc : LocaTable) (hd : HeadTable)
    (hg : f.glyf = some gl) (hl : f.loca = some lc) (hh : f.head = some hd)
    (h : subsetGlyfLoca f idxs = Except.ok (g1, l1)) :
    ∃ descs1, mapIdxGet gl.descs idxs = Except.ok descs1 ∧
      g1 = some ⟨descs1⟩ ∧
      ∃ lc1, l1 = some lc1 ∧
        locaRebuild (hd.indexToLocFormat = 0) lc descs1 = Except.ok lc1 := by
  match hm : mapIdxGet gl.descs idxs with
  | Except.error e => simp [subsetGlyfLoca, hg, hl, hh, hm] at h
  | Except.ok descs1 =>
    match hlr : locaRebuild (hd.indexToLocFormat = 0) lc descs1 with
    | Except.error e => simp [subsetGlyfLoca, hg, hl, hh, hm, hlr] at h
    | Except.ok lc1 =>
      simp only [subsetGlyfLoca, hg, hl, hh, hm, hlr, Except.ok.injEq,
        Prod.mk.injEq] at h
      exact ⟨descs1, rfl, h.1.symm, lc1, h.2.symm, hlr⟩

/-- Shape of a successful `subset`: the new maxp count, the carried-over
head and the glyf/loca rebuild. -/
theorem subset_ok_shape (f : Font) (rs : List Nat) (res : Font)
    (h : subset f rs = Except.ok res) :
    res.maxp = f.maxp.map (fun mp =>
      { mp with numGlyphs := u16 (lookupRunes f rs).1.length }) ∧
    res.head = f.head ∧
    ∃ g1 l1, subsetGlyfLoca f (lookupRunes f rs).1 = Except.ok (g1, l1) ∧
      res.glyf = g1 ∧ res.loca = l1 := by
  match hc1 : optE (subsetCmap (lookupRunes f rs).2) f.cmap with
  | Except.error e => simp [subset, hc1] at h
  | Except.ok cm1 =>
    match hh1 : optE (fun hm => subsetHmtx hm (lookupRunes f rs).1) f.hmtx with
    | Except.error e => simp [subset, hc1, hh1] at h
    | Except.ok hm1 =>
      match hp1 : optE (fun p =>
          subsetPost p (lookupRunes f rs).1 (lookupRunes f rs).1.length)
          f.post with
      | Except.error e => simp [subset, hc1, hh1, hp1] at h
      | Except.ok p1 =>
        match hg1 : subsetGlyfLoca f (lookupRunes f rs).1 with
        | Except.error e => simp [subset, hc1, hh1, hp1, hg1] at h
        | Except.ok (g1, l1) =>
          simp only [subset, hc1, hh1, hp1, hg1, Except.ok.injEq] at h
          refine ⟨?_, ?_, g1, l1, rfl, ?_, ?_⟩ <;> rw [← h]

theorem compactAdj_subset : ∀ l : List Nat, compactAdj l ⊆ l
  | [] => by simp [compactAdj]
  | [a] => by simp [compactAdj]
  | a :: b :: rest => by
    intro x hx
    rw [compactAdj] at hx
    by_cases hab : a = b
    · rw [if_pos hab] at hx
      exact List.mem_cons_of_mem a (compactAdj_subset (b :: rest) hx)
    · rw [if_neg hab] at hx
      rcases List.mem_cons.mp hx with h | h
      · exact h ▸ List.mem_cons_self a _
      · exact List.mem_cons_of_mem a (compactAdj_subset (b :: rest) h)

theorem compactAdj_nodup : ∀ l : List Nat, l.Sorted (· ≤ ·) → (compactAdj l).Nodup
  | [] => by simp [compactAdj]
  | [a] => by simp [compactAdj]
  | a :: b :: rest => by
    intro hsort
    have hab2 := List.pairwise_cons.mp hsort
    have htail := compactAdj_nodup (b :: rest) hab2.2
    rw [compactAdj]
    by_cases hab : a = b
    · rw [if_pos hab]
      exact htail
    · rw [if_neg hab]
      refine List.nodup_cons.mpr ⟨?_, htail⟩
      intro hmem
      have hmem2 : a ∈ b :: rest := compactAdj_subset (b :: rest) hmem
      have hle : a ≤ b := hab2.1 b (List.mem_cons_self b rest)
      rcases List.mem_cons.mp hmem2 with h | h
      · exact hab h
      · have hbx : b ≤ a := by
          have := (List.pairwise_cons.mp hab2.2).1 a h
          exact this
        have : a = b := le_antisymm hle hbx
        exact hab this

theorem nodup_bounded_length (l : List Nat) (k : Nat)
    (hnd : l.Nodup) (hb : ∀ x ∈ l, x < k) : l.length ≤ k := by
  have hsub : l ⊆ List.range k := fun x hx => List.mem_range.mpr (hb x hx)
  have := (List.subperm_of_subset hnd hsub).length_le
  simpa using this

theorem firstHit_bound (N : Nat) :
    ∀ (ms : List (Option (List (Nat × Nat)))) (r ind : Nat),
      (∀ mp, some mp ∈ ms → ∀ q ∈ mp, q.2 < N) →
      firstHit ms r = some ind → ind < N := by
  intro ms
  induction ms with
  | nil => intro r ind _ h; simp [firstHit] at h
  | cons m rest ih =>
    intro r ind hb h
    match m with
    | none =>
      simp only [firstHit] at h
      exact ih r ind (fun mp hm => hb mp (List.mem_cons_of_mem none hm)) h
    | some mp =>
      simp only [firstHit] at h
      match hl : lookupA mp r with
      | some v =>
        rw [hl] at h
        simp only [Option.some.injEq] at h
        have hq := lookupA_mem hl
        have := hb mp (List.mem_cons_self _ _) (r, v) hq
        simpa [← h] using this
      | none =>
        rw [hl] at h
        exact ih r ind (fun mp2 hm => hb mp2 (List.mem_cons_of_mem _ hm)) h

/-- The cmap invariant of the spec: every mapped glyph index is below
the glyph count. -/
def cmapBounded (f : Font) (N : Nat) : Prop :=
  ∀ c, f.cmap = some c → ∀ pr ∈ c.subtables, ∀ q ∈ pr.2.cmap, q.2 < N

theorem getCmap_bound (f : Font) (N p e : Nat) (mp : List (Nat × Nat))
    (hb : cmapBounded f N) (h : getCmap f p e = some mp) :
    ∀ q ∈ mp, q.2 < N := by
  match hc : f.cmap with
  | none => simp [getCmap, hc] at h
  | some c =>
    simp only [getCmap, hc] at h
    match hf : c.subtables.find? (fun pr =>
        pr.2.platformID = p ∧ pr.2.encodingID = e) with
    | some pr =>
      rw [hf] at h
      simp only [Option.some.injEq] at h
      have hmem := List.mem_of_find?_eq_some hf
      exact h ▸ hb c hc pr hmem
    | none => rw [hf] at h; cases h

theorem lookupMaps_bound (f : Font) (N : Nat) (hb : cmapBounded f N) :
    ∀ mp, some mp ∈ lookupMaps f → ∀ q ∈ mp, q.2 < N := by
  intro mp hm
  simp only [lookupMaps, List.mem_cons, List.mem_singleton] at hm
  rcases hm with h | h | h | h | h
  · exact getCmap_bound f N 3 1 mp hb h.symm
  · exact getCmap_bound f N 1 0 mp hb h.symm
  · exact getCmap_bound f N 0 3 mp hb h.symm
  · exact getCmap_bound f N 3 10 mp hb h.symm
  · cases h

/-- Every glyph index the rune loop accumulates is the seed 0 or a hit
of the priority maps. -/
theorem lookupFold_fst_sound (maps : List (Option (List (Nat × Nat)))) :
    ∀ (rs : List Nat) (acc : List Nat × List (Nat × Nat)),
      (∀ x ∈ acc.1, x = 0 ∨ ∃ r, firstHit maps r = some x) →
      ∀ x ∈ (rs.foldl (lookupStep maps) acc).1,
        x = 0 ∨ ∃ r, firstHit maps r = some x := by
  intro rs
  induction rs with
  | nil => intro acc hacc x hx; exact hacc x hx
  | cons r rest ih =>
    intro acc hacc x hx
    refine ih (lookupStep maps acc r) ?_ x hx
    intro y hy
    simp only [lookupStep] at hy
    match hh : firstHit maps r with
    | some ind =>
      rw [hh] at hy
      rcases List.mem_append.mp hy with h | h
      · exact hacc y h
      · right
        have : y = ind := by simpa using h
        exact ⟨r, this ▸ hh⟩
    | none =>
      rw [hh] at hy
      exact hacc y hy

/-- The deduplicated glyph-index list of `LookupRunes` has at most
0xFFFF entries when the cmap maps only glyph indices below the (16-bit)
glyph count. -/
theorem lookupRunes_len_le (f : Font) (rs : List Nat) (N : Nat)
    (hN : N ≤ 65535) (hb : cmapBounded f N) :
    (lookupRunes f rs).1.length ≤ 65535 := by
  apply nodup_bounded_length
  · -- nodup: compact of sorted
    apply compactAdj_nodup
    exact List.sorted_insertionSort (· ≤ ·) _
  · intro x hx
    have hx2 : x ∈ sortNat (rs.foldl (lookupStep (lookupMaps f)) ([0], [])).1 :=
      compactAdj_subset _ hx
    have hx3 : x ∈ (rs.foldl (lookupStep (lookupMaps f)) ([0], [])).1 := by
      rw [sortNat] at hx2
      exact (List.perm_insertionSort (· ≤ ·) _).subset hx2
    have := lookupFold_fst_sound (lookupMaps f) rs ([0], [])
      (by intro y hy; left; simpa using hy) x hx3
    rcases this with h | ⟨r, h⟩
    · omega
    · have := firstHit_bound N (lookupMaps f) r x
        (lookupMaps_bound f N hb) h
      omega

/-- The count-consistency invariant of the spec: the maxp glyph count,
the glyf description count and the loca entry count (minus one, for the
selected offset width) agree. -/
def countConsistent (res : Font) : Prop :=
  ∃ mp gl hd lc, res.maxp = some mp ∧ res.glyf = some gl ∧
    res.head = some hd ∧ res.loca = some lc ∧
    mp.numGlyphs = gl.descs.length ∧
    locaEntries hd lc = gl.descs.length + 1

/-- C2: every subsetting operation that returns a new model (the no-op
path of `SubsetFirst` hands the receiver back and is excluded by
`n < numGlyphs`) produces a font with
`maxp.numGlyphs = len(glyf.descs) = loca entries - 1` for the loca
width selected by `head.indexToLocFormat`.  Hypotheses: the source font
carries maxp/glyf/loca, its glyph count fits in 16 bits and (for
`Subset`) the cmap maps only in-range glyph indices, and (for the
index-preserving prune) the source already satisfies
`maxp.numGlyphs = len(glyf.descs)`. -/
theorem c2_count_consistency :
    (∀ (f : Font) (n : Nat) (res : Font) (mp : MaxpTable),
       f.maxp = some mp → mp.numGlyphs ≤ 65535 →
       f.glyf.isSome = true → f.loca.isSome = true →
       n < mp.numGlyphs →
       subsetFirst f n = Except.ok res → countConsistent res) ∧
    (∀ (f : Font) (rs : List Nat) (res : Font) (mp : MaxpTable),
       f.maxp = some mp → mp.numGlyphs ≤ 65535 →
       f.glyf.isSome = true → f.loca.isSome = true →
       cmapBounded f mp.numGlyphs →
       subset f rs = Except.ok res → countConsistent res) ∧
    (∀ (f : Font) (idxs : List Nat) (res : Font) (mp : MaxpTable)
       (gl : GlyfTable),
       f.maxp = some mp → mp.numGlyphs ≤ 65535 →
       f.glyf = some gl → mp.numGlyphs = gl.descs.length →
       f.loca.isSome = true →
       subsetKeepIndices f idxs = Except.ok res → countConsistent res) ∧
    (∀ (f : Font) (rs : List Nat) (res : Font) (mp : MaxpTable)
       (gl : GlyfTable),
       f.maxp = some mp → mp.numGlyphs ≤ 65535 →
       f.glyf = some gl → mp.numGlyphs = gl.descs.length →
       f.loca.isSome = true →
       subsetKeepRunes f rs = Except.ok res → countConsistent res) := by
  have hfirst : ∀ (f : Font) (n : Nat) (res : Font) (mp : MaxpTable),
      f.maxp = some mp → mp.numGlyphs ≤ 65535 →
      f.glyf.isSome = true → f.loca.isSome = true →
      n < mp.numGlyphs →
      subsetFirst f n = Except.ok res → countConsistent res := by
    intro f n res mp hmp hle hg hl hn h
    obtain ⟨mp2, hmp2, hcase⟩ := subsetFirst_ok_shape f n res h
    have hmpe : mp2 = mp := by
      rw [hmp] at hmp2
      exact (Option.some.injEq _ _ ▸ hmp2).symm
    subst hmpe
    rcases hcase with ⟨hle2, _⟩ | ⟨hn2, hresmp, hreshead, g1, l1, hglo, hresg, hresl⟩
    · omega
    · match hgl2 : f.glyf with
      | none => rw [hgl2] at hg; cases hg
      | some gl =>
      match hlc2 : f.loca with
      | none => rw [hlc2] at hl; cases hl
      | some lc =>
      match hhd : f.head with
      | none => simp [subsetFirstGlyfLoca, hgl2, hlc2, hhd] at hglo
      | some hd =>
        obtain ⟨hnle, hg1, lc1, hl1, hlr⟩ :=
          subsetFirstGlyfLoca_ok f n g1 l1 gl lc hd hgl2 hlc2 hhd hglo
        refine ⟨{ numGlyphs := u16 n }, ⟨gl.descs.take n⟩, hd, lc1,
          hresmp, by rw [hresg, hg1], by rw [hreshead, hhd],
          by rw [hresl, hl1], ?_, ?_⟩
        · have : u16 n = n := Nat.mod_eq_of_lt (by omega)
          simp only [this, List.length_take]
          omega
        · have := locaRebuild_entries hd lc (gl.descs.take n) lc1 hlr
          simpa using this
  have hsub : ∀ (f : Font) (rs : List Nat) (res : Font) (mp : MaxpTable),
      f.maxp = some mp → mp.numGlyphs ≤ 65535 →
      f.glyf.isSome = true → f.loca.isSome = true →
      cmapBounded f mp.numGlyphs →
      subset f rs = Except.ok res → countConsistent res := by
    intro f rs res mp hmp hle hg hl hb h
    obtain ⟨hresmp, hreshead, g1, l1, hglo, hresg, hresl⟩ :=
      subset_ok_shape f rs res h
    match hgl2 : f.glyf with
    | none => rw [hgl2] at hg; cases hg
    | some gl =>
    match hlc2 : f.loca with
    | none => rw [hlc2] at hl; cases hl
    | some lc =>
    match hhd : f.head with
    | none => simp [subsetGlyfLoca, hgl2, hlc2, hhd] at hglo
    | some hd =>
      obtain ⟨descs1, hmi, hg1, lc1, hl1, hlr⟩ :=
        subsetGlyfLoca_ok f (lookupRunes f rs).1 g1 l1 gl lc hd
          hgl2 hlc2 hhd hglo
      have hdlen : descs1.length = (lookupRunes f rs).1.length :=
        mapIdxGet_length gl.descs (lookupRunes f rs).1 descs1 hmi
      have hilen : (lookupRunes f rs).1.length ≤ 65535 :=
        lookupRunes_len_le f rs mp.numGlyphs hle hb
      refine ⟨{ mp with numGlyphs := u16 (lookupRunes f rs).1.length },
        ⟨descs1⟩, hd, lc1,
        by rw [hresmp, hmp, Option.map_some'],
        by rw [hresg, hg1], by rw [hreshead, hhd],
        by rw [hresl, hl1], ?_, ?_⟩
      · have : u16 (lookupRunes f rs).1.length = (lookupRunes f rs).1.length :=
          Nat.mod_eq_of_lt (by omega)
        simp only [this, hdlen]
      · have := locaRebuild_entries hd lc descs1 lc1 hlr
        simpa using this
  have hkeep : ∀ (f : Font) (idxs : List Nat) (res : Font) (mp : MaxpTable)
      (gl : GlyfTable),
      f.maxp = some mp → mp.numGlyphs ≤ 65535 →
      f.glyf = some gl → mp.numGlyphs = gl.descs.length →
      f.loca.isSome = true →
      subsetKeepIndices f idxs = Except.ok res → countConsistent res := by
    intro f idxs res mp gl hmp hle hg hlen hl h
    match hlc : f.loca with
    | none => rw [hlc] at hl; cases hl
    | some lc =>
    match hclo : keepClosure f idxs with
    | Except.error e => simp [subsetKeepIndices, hclo] at h
    | Except.ok included =>
      match hhd : f.head with
      | none => simp [subsetKeepIndices, hclo, hg, hlc, hhd] at h
      | some hd =>
        match hlr : locaRebuild (hd.indexToLocFormat = 0) lc
            (clearDescs included gl.descs) with
        | Except.error e =>
          simp [subsetKeepIndices, hclo, hg, hlc, hhd, hlr] at h
        | Except.ok lc1 =>
          simp only [subsetKeepIndices, hclo, hg, hlc, hhd, hlr] at h
          set descs1 := clearDescs included gl.descs with hd1
          have hlen1 : descs1.length = gl.descs.length :=
            clearDescs_length included gl.descs
          set inter : Font :=
            { ot := f.ot, trec := f.trec, head := some hd,
              maxp := f.maxp, hhea := (optimizeHmtxPair f.hhea f.hmtx).1,
              hmtx := (optimizeHmtxPair f.hhea f.hmtx).2,
              loca := some lc1, glyf := some ⟨descs1⟩,
              prep := f.prep, cvt := f.cvt, fpgm := f.fpgm,
              name := f.name, os2 := f.os2, post := f.post,
              cmap := f.cmap } with hinter
          have h2 : subsetFirst inter (included.foldl max 0 + 1) =
              Except.ok res := h
          obtain ⟨mp2, hmp2, hcase⟩ := subsetFirst_ok_shape inter _ res h2
          have hmpi : inter.maxp = some mp := by
            simp [hinter, hmp]
          have hmpe : mp2 = mp := by
            rw [hmpi] at hmp2
            exact (Option.some.injEq _ _ ▸ hmp2).symm
          rcases hcase with ⟨_, hres⟩ |
            ⟨hn2, hresmp, hreshead, g1, l1, hglo, hresg, hresl⟩
          · subst hres
            refine ⟨mp, ⟨descs1⟩, hd, lc1, hmpi, rfl, rfl, rfl, ?_, ?_⟩
            · show mp.numGlyphs = descs1.length
              omega
            · have := locaRebuild_entries hd lc descs1 lc1 hlr
              simpa using this
          · rw [hmpe] at hn2
            have hginter : inter.glyf = some (⟨descs1⟩ : GlyfTable) := rfl
            have hlinter : inter.loca = some lc1 := rfl
            have hhinter : inter.head = some hd := rfl
            obtain ⟨hnle, hg1, lc2, hl1b, hlr2⟩ :=
              subsetFirstGlyfLoca_ok inter _ g1 l1 ⟨descs1⟩ lc1 hd
                hginter hlinter hhinter hglo
            refine ⟨{ numGlyphs := u16 (included.foldl max 0 + 1) },
              ⟨descs1.take (included.foldl max 0 + 1)⟩, hd, lc2,
              hresmp, by rw [hresg, hg1], by rw [hreshead, hhinter],
              by rw [hresl, hl1b], ?_, ?_⟩
            · have hu : u16 (included.foldl max 0 + 1) =
                  included.foldl max 0 + 1 := by
                apply Nat.mod_eq_of_lt
                omega
              simp only [hu, List.length_take]
              simp only at hnle
              omega
            · have := locaRebuild_entries hd lc1
                (descs1.take (included.foldl max 0 + 1)) lc2 hlr2
              simpa using this
  refine ⟨hfirst, hsub, hkeep, ?_⟩
  intro f rs res mp gl hmp hle hg hlen hl h
  rw [subsetKeepRunes] at h
  exact hkeep f _ res mp gl hmp hle hg hlen hl h

/-- Witness for `c2_count_consistency` on concrete fonts: a first-2
truncation and a rune subset of `exFont9`, and an index-preserving prune
of `exFontC4`. -/
theorem c2_count_consistency_witness :
    (∃ res, subsetFirst exFont9 2 = Except.ok res ∧ countConsistent res) ∧
    (∃ res, subset exFont9 [0] = Except.ok res ∧ countConsistent res) ∧
    (∃ res, subsetKeepIndices exFontC4 [1] = Except.ok res ∧
      countConsistent res) :=
  ⟨⟨_, rfl, c2_count_consistency.1 exFont9 2 _ ⟨6⟩ rfl (by decide) rfl rfl
      (by decide) rfl⟩,
   ⟨_, rfl, c2_count_consistency.2.1 exFont9 [0] _ ⟨6⟩ rfl (by decide) rfl rfl
      (by intro c hc; cases hc; decide) rfl⟩,
   ⟨_, rfl, c2_count_consistency.2.2.1 exFontC4 [1] _ ⟨3⟩ exGlyfC4 rfl
      (by decide) rfl (by decide) rfl rfl⟩⟩

/-! ## validator (src/ttf/table_post.go, validate; claim C5) -/

/-- Zero the four bytes at positions `i .. i+3` (the in-place writes
`data[hoff+8] = 0` … `data[hoff+11] = 0`). -/
def zero4At (data : List Nat) (i : Nat) : List Nat :=
  (((data.set i 0).set (i + 1) 0).set (i + 2) 0).set (i + 3) 0

/-- One iteration of the validator's table loop, parameterized by the
checksum function of the binary cursor (a collaborator whose
accumulation algorithm is not reimplemented here): reread the declared byte
range (short reads fail), zero the checksumAdjustment bytes when the
table is head (fewer than 12 bytes is an error), compare the checksum
against the directory entry, and check the read byte count against the
declared length. -/
def validateTable (cksum : List Nat → Nat) (data : List Nat)
    (tr : TableRecord) : Except Err Unit :=
  if data.length < tr.offset + tr.length then Except.error Err.readFailed
  else
    let b := (data.drop tr.offset).take tr.length
    if tr.tag = "head" then
      if b.length < 12 then Except.error Err.headTooShort
      else
        let b2 := zero4At b 8
        if tr.checksum ≠ cksum b2 then Except.error Err.checksumIncorrect
        else if tr.length ≠ b2.length then Except.error Err.rangeCheck
        else Except.ok ()
    else
      if tr.checksum ≠ cksum b then Except.error Err.checksumIncorrect
      else if tr.length ≠ b.length then Except.error Err.rangeCheck
      else Except.ok ()

/-- The validator's loop over every table record, first failure wins. -/
def validateTables (cksum : List Nat → Nat) (data : List Nat) :
    List TableRecord → Except Err Unit
  | [] => Except.ok ()
  | tr :: rest =>
    match validateTable cksum data tr with
    | Except.error e => Except.error e
    | Except.ok _ => validateTables cksum data rest

/-- `validate`: require the directory, offset table and head table,
zero the 4-byte checksumAdjustment inside a copy of the whole file (the
in-place writes panic when the head record points past the end),
compare `0xB1B0AFBA - checksum` (uint32 wrap) with the stored
`head.checksumAdjustment`, then validate every table record. -/
def validate (cksum : List Nat → Nat) (f : Font) (data : List Nat) :
    Except Err Unit :=
  match f.trec with
  | none => Except.error Err.requiredField
  | some trec =>
    match f.ot with
    | none => Except.error Err.requiredField
    | some _ =>
      match f.head with
      | none => Except.error Err.requiredField
      | some hd =>
        match trFind trec "head" with
        | none => Except.error Err.requiredField
        | some headRec =>
          if data.length < headRec.offset + 12 then Except.error Err.panicked
          else
            let data2 := zero4At data (headRec.offset + 8)
            let adjustment :=
              (0xB1B0AFBA + 4294967296 - u32 (cksum data2)) % 4294967296
            if hd.checksumAdjustment ≠ adjustment then
              Except.error Err.fileChecksumMismatch
            else validateTables cksum data trec.list

theorem zero4At_length (data : List Nat) (i : Nat) :
    (zero4At data i).length = data.length := by
  simp [zero4At]

theorem validateTable_ok_iff (cksum : List Nat → Nat) (data : List Nat)
    (tr : TableRecord) :
    validateTable cksum data tr = Except.ok () ↔
      (tr.offset + tr.length ≤ data.length ∧
       tr.checksum = cksum (if tr.tag = "head"
         then zero4At ((data.drop tr.offset).take tr.length) 8
         else (data.drop tr.offset).take tr.length) ∧
       (tr.tag = "head" → 12 ≤ tr.length)) := by
  rw [validateTable]
  by_cases hb : data.length < tr.offset + tr.length
  · rw [if_pos hb]
    constructor
    · intro h; cases h
    · intro h; omega
  · rw [if_neg hb]
    have hlen : ((data.drop tr.offset).take tr.length).length = tr.length := by
      simp only [List.length_take, List.length_drop]
      omega
    by_cases htag : tr.tag = "head"
    · simp only [if_pos htag]
      by_cases h12 : ((data.drop tr.offset).take tr.length).length < 12
      · rw [if_pos h12]
        constructor
        · intro h; cases h
        · intro h
          have := h.2.2 htag
          omega
      · rw [if_neg h12]
        by_cases hck : tr.checksum =
            cksum (zero4At ((data.drop tr.offset).take tr.length) 8)
        · rw [if_neg (by simpa using hck)]
          rw [if_neg (by
            simp only [zero4At_length]
            omega)]
          constructor
          · intro _
            exact ⟨by omega, by simpa using hck, fun _ => by omega⟩
          · intro _; rfl
        · rw [if_pos (by simpa using hck)]
          constructor
          · intro h; cases h
          · intro h
            exact absurd (by simpa using h.2.1) hck
    · simp only [if_neg htag]
      by_cases hck : tr.checksum = cksum ((data.drop tr.offset).take tr.length)
      · rw [if_neg (by simpa using hck)]
        rw [if_neg (by omega)]
        constructor
        · intro _
          exact ⟨by omega, by simpa using hck, fun ht => absurd ht htag⟩
        · intro _; rfl
      · rw [if_pos (by simpa using hck)]
        constructor
        · intro h; cases h
        · intro h
          exact absurd (by simpa using h.2.1) hck

theorem validateTables_ok_iff (cksum : List Nat → Nat) (data : List Nat) :
    ∀ l : List TableRecord,
      validateTables cksum data l = Except.ok () ↔
        ∀ tr ∈ l, validateTable cksum data tr = Except.ok () := by
  intro l
  induction l with
  | nil => simp [validateTables]
  | cons tr rest ih =>
    rw [validateTables]
    match hv : validateTable cksum data tr with
    | Except.error e =>
      constructor
      · intro h; cases h
      · intro h
        have := h tr (List.mem_cons_self tr rest)
        rw [hv] at this
        cases this
    | Except.ok _ =>
      rw [ih]
      constructor
      · intro h tr2 hm
        rcases List.mem_cons.mp hm with he | he
        · exact he ▸ hv
        · exact h tr2 he
      · intro h tr2 hm
        exact h tr2 (List.mem_cons_of_mem tr hm)

/-- C5: for a parseable stream (witnessed by the presence facts the
parser guarantees: directory, offset table, head table, a head record
whose checksumAdjustment bytes lie within the file), validation succeeds
exactly when (1) `0xB1B0AFBA` minus the checksum of the file with the
head checksumAdjustment bytes zeroed (mod 2^32) equals the stored
`head.checksumAdjustment`, and (2) every table record's declared byte
range lies within the file (so the read count equals the declared
length), its checksum — computed with the checksumAdjustment bytes
zeroed when the table is head, which requires at least 12 bytes —
equals the directory's stored checksum.  Any mismatch yields a
validation error.  The checksum function itself is the binary cursor's
(a collaborator), abstracted as a parameter. -/
theorem c5_validate_iff (cksum : List Nat → Nat) (f : Font)
    (data : List Nat) (trec : TableRecords) (hd : HeadTable)
    (headRec : TableRecord)
    (htrec : f.trec = some trec) (hot : f.ot.isSome = true)
    (hhd : f.head = some hd) (hfind : trFind trec "head" = some headRec)
    (hbound : headRec.offset + 12 ≤ data.length) :
    validate cksum f data = Except.ok () ↔
      (hd.checksumAdjustment =
        (0xB1B0AFBA + 4294967296 -
          u32 (cksum (zero4At data (headRec.offset + 8)))) % 4294967296 ∧
       ∀ tr ∈ trec.list,
         tr.offset + tr.length ≤ data.length ∧
         tr.checksum = cksum (if tr.tag = "head"
           then zero4At ((data.drop tr.offset).take tr.length) 8
           else (data.drop tr.offset).take tr.length) ∧
         (tr.tag = "head" → 12 ≤ tr.length)) := by
  match hot2 : f.ot with
  | none => rw [hot2] at hot; cases hot
  | some u =>
    rw [validate, htrec, hot2, hhd]
    dsimp only
    rw [hfind]
    dsimp only
    rw [if_neg (by omega)]
    by_cases hadj : hd.checksumAdjustment =
        (0xB1B0AFBA + 4294967296 -
          u32 (cksum (zero4At data (headRec.offset + 8)))) % 4294967296
    · rw [if_neg (by simpa using hadj)]
      rw [validateTables_ok_iff]
      constructor
      · intro h
        refine ⟨hadj, ?_⟩
        intro tr hm
        exact (validateTable_ok_iff cksum data tr).mp (h tr hm)
      · intro h tr hm
        exact (validateTable_ok_iff cksum data tr).mpr (h.2 tr hm)
    · rw [if_pos (by simpa using hadj)]
      constructor
      · intro h; cases h
      · intro h
        exact absurd h.1 hadj

/-- A one-table font and stream instantiating the validator. -/
def exRec5 : TableRecord := { tag := "head", checksum := 0, offset := 0, length := 12 }

/-- The font model around `exRec5`. -/
def exFont5 : Font :=
  { ot := some (), trec := some ⟨[exRec5]⟩,
    head := some ⟨0, 0xB1B0AFBA⟩, maxp := none, hhea := none, hmtx := none,
    loca := none, glyf := none, prep := none, cvt := none, fpgm := none,
    name := none, os2 := none, post := none, cmap := none }

/-- Witness for `c5_validate_iff` with the constant-zero checksum
function on a 12-byte stream. -/
theorem c5_validate_iff_witness :
    validate (fun _ => 0) exFont5 (List.replicate 12 0) = Except.ok () :=
  (c5_validate_iff (fun _ => 0) exFont5 (List.replicate 12 0) ⟨[exRec5]⟩
    ⟨0, 0xB1B0AFBA⟩ exRec5 rfl rfl rfl (by decide) (by decide)).mpr
    (by decide)

end Subfont
